import Mathlib

/-!
Verification development for scripts/extract_strava_examples.py.

The script fetches one documentation page, scans it for code blocks that
contain JSON payloads, and writes each parsed payload, pretty-printed with a
2-space indent, to a file named after the nearest preceding h2/h3 heading
(with an `example-<n>` fallback).  This file gives a shallow embedding of
that pipeline: strings are `List Char`, the parsed HTML document is a tree,
the JSON library calls (`json.loads` / `json.dump(..., indent=2)`) are
modelled by an executable parser and serializer over a JSON value type, and
file writes are collected in a write log.

Model restrictions (noted where relevant): Python's Unicode-aware
`str.lower` / `str.strip` are modelled on their ASCII behaviour, JSON
numbers are modelled as integers (float literals are rejected by the model
parser), and JSON strings are sequences of Unicode scalar values (lone
surrogates, which Python's `str` can hold, have no `Char` counterpart).
-/

/-- Character list of a string literal; used to state properties over Python strings. -/
def lc (s : String) : List Char := s.data

/-- Characters of the regex character class `[a-z0-9-]` in `clean_name`
(code points of `a`-`z`, `0`-`9` and the hyphen). -/
def allowedChar (c : Char) : Bool :=
  (97 ≤ c.toNat && c.toNat ≤ 122) || (48 ≤ c.toNat && c.toNat ≤ 57) || c.toNat == 45

/-- Whitespace stripped by Python `str.strip()` (ASCII model): space, tab,
newline, carriage return, vertical tab, form feed. -/
def pySpace (c : Char) : Bool :=
  c.toNat == 32 || c.toNat == 9 || c.toNat == 10 || c.toNat == 13 ||
    c.toNat == 11 || c.toNat == 12

/-- ASCII model of Python `str.lower`: maps A-Z to a-z, leaves other characters. -/
def pyLower (c : Char) : Char :=
  if 65 ≤ c.toNat && c.toNat ≤ 90 then Char.ofNat (c.toNat + 32) else c

/-- The hyphen character, as a predicate (for Python `str.strip('-')`). -/
def hyChar (c : Char) : Bool := c.toNat == 45

/-- Remove trailing characters satisfying `p`. -/
def dropTrailing (p : Char → Bool) (l : List Char) : List Char :=
  (l.reverse.dropWhile p).reverse

/-- Python `str.strip`: remove leading and trailing characters satisfying `p`. -/
def pyStripBy (p : Char → Bool) (l : List Char) : List Char :=
  dropTrailing p (l.dropWhile p)

/-- Python `str.strip()` with no argument (whitespace). -/
def pyStrip (l : List Char) : List Char := pyStripBy pySpace l

/-- One pass of `re.sub(r'[^a-z0-9\-]+', '-', s)`: each maximal run of characters
outside `[a-z0-9-]` becomes a single hyphen.  The boolean flag records whether
the previous character was part of a run already replaced. -/
def collapseGo : Bool → List Char → List Char
  | _, [] => []
  | inRun, c :: cs =>
    if allowedChar c then c :: collapseGo false cs
    else if inRun then collapseGo true cs
    else '-' :: collapseGo true cs

/-- The substitution `re.sub(r'[^a-z0-9\-]+', '-', s)`. -/
def collapseRuns (l : List Char) : List Char := collapseGo false l

/-- Source `clean_name`: `re.sub(r'[^a-z0-9\-]+', '-', text.strip().lower()).strip('-')`. -/
def cleanName (text : List Char) : List Char :=
  pyStripBy hyChar (collapseRuns ((pyStrip text).map pyLower))

/-- Modelled from the spec: the section 4.3 normalization as worded there, which
omits the initial whitespace `strip()` of the source: lower-case the text,
replace every maximal run of characters outside `[a-z0-9-]` with a single
hyphen, then strip leading/trailing hyphens. -/
def cleanNameSpec (text : List Char) : List Char :=
  pyStripBy hyChar (collapseRuns (text.map pyLower))

/-- Decimal digit character for `d < 10`. -/
def digitChar (d : Nat) : Char := Char.ofNat (48 + d)

/-- Fuel-driven decimal digit expansion (most significant digit first). -/
def natCharsGo : Nat → Nat → List Char
  | 0, _ => []
  | fuel+1, n => if n < 10 then [digitChar n] else natCharsGo fuel (n / 10) ++ [digitChar (n % 10)]

/-- Decimal representation of a natural number, as Python `str` produces it. -/
def natChars (n : Nat) : List Char := natCharsGo (n + 1) n

/-- Python `str` of an int, as used by f-strings and by `json.dumps`. -/
def intChars : Int → List Char
  | .ofNat n => natChars n
  | .negSucc n => '-' :: natChars (n + 1)

mutual

inductive PyJson where
  | null : PyJson
  | bool (b : Bool) : PyJson
  | int (n : Int) : PyJson
  | str (s : List Char) : PyJson
  | arr (xs : JArr) : PyJson
  | obj (kvs : JObj) : PyJson

inductive JArr where
  | nil : JArr
  | cons (hd : PyJson) (tl : JArr) : JArr

inductive JObj where
  | nil : JObj
  | cons (k : List Char) (v : PyJson) (tl : JObj) : JObj

end

/-- Lowercase hexadecimal digit character for `d < 16`. -/
def hexChar (d : Nat) : Char := if d < 10 then Char.ofNat (48 + d) else Char.ofNat (87 + d)

/-- Four lowercase hex digits of `n % 65536`, as Python's `'\u%04x' % n`. -/
def toHex4 (n : Nat) : List Char :=
  [hexChar (n / 4096 % 16), hexChar (n / 256 % 16), hexChar (n / 16 % 16), hexChar (n % 16)]

/-- Escape of one character in Python `json.dumps` (default `ensure_ascii=True`):
named escapes for quote, backslash and common controls, printable ASCII kept
literal, everything else as `\uXXXX` (with a surrogate pair above U+FFFF). -/
def escChar (c : Char) : List Char :=
  if c.toNat == 34 then ['\\', '"']
  else if c.toNat == 92 then ['\\', '\\']
  else if c.toNat == 8 then ['\\', 'b']
  else if c.toNat == 12 then ['\\', 'f']
  else if c.toNat == 10 then ['\\', 'n']
  else if c.toNat == 13 then ['\\', 'r']
  else if c.toNat == 9 then ['\\', 't']
  else if 32 ≤ c.toNat && c.toNat ≤ 126 then [c]
  else if c.toNat < 65536 then '\\' :: 'u' :: toHex4 c.toNat
  else
    ('\\' :: 'u' :: toHex4 (55296 + (c.toNat - 65536) / 1024)) ++
      ('\\' :: 'u' :: toHex4 (56320 + (c.toNat - 65536) % 1024))

/-- Escape every character of a JSON string body. -/
def escString : List Char → List Char
  | [] => []
  | c :: cs => escChar c ++ escString cs

/-- Serialized JSON string: quote, escaped body, quote. -/
def dumpString (s : List Char) : List Char := '"' :: escString s ++ ['"']

/-- Indentation emitted by `json.dump(..., indent=2)` at nesting depth `d`. -/
def indentSp (d : Nat) : List Char := List.replicate (2 * d) ' '

mutual

/-- Serialization of a JSON value as `json.dump(value, f, indent=2)` writes it,
at nesting depth `d`: empty containers inline, non-empty containers with one
element per line, items separated by `\",\n\"`, keys followed by `\": \"`. -/
def dumpsV : Nat → PyJson → List Char
  | _, .null => ['n', 'u', 'l', 'l']
  | _, .bool true => ['t', 'r', 'u', 'e']
  | _, .bool false => ['f', 'a', 'l', 's', 'e']
  | _, .int i => intChars i
  | _, .str s => dumpString s
  | _, .arr .nil => ['[', ']']
  | d, .arr (.cons x xs) =>
    '[' :: '\n' :: dumpArr (d + 1) (JArr.cons x xs) ++ '\n' :: indentSp d ++ [']']
  | _, .obj .nil => ['\x7b', '\x7d']
  | d, .obj (.cons k v r) =>
    '\x7b' :: '\n' :: dumpObj (d + 1) (JObj.cons k v r) ++ '\n' :: indentSp d ++ ['\x7d']

/-- Comma-and-newline separated array items, each on its own indented line. -/
def dumpArr : Nat → JArr → List Char
  | _, .nil => []
  | d, .cons x .nil => indentSp d ++ dumpsV d x
  | d, .cons x (.cons y ys) =>
    indentSp d ++ dumpsV d x ++ ',' :: '\n' :: dumpArr d (JArr.cons y ys)

/-- Comma-and-newline separated object members, each on its own indented line. -/
def dumpObj : Nat → JObj → List Char
  | _, .nil => []
  | d, .cons k v .nil => indentSp d ++ dumpString k ++ ':' :: ' ' :: dumpsV d v
  | d, .cons k v (.cons k2 v2 r) =>
    indentSp d ++ dumpString k ++ ':' :: ' ' :: dumpsV d v ++
      ',' :: '\n' :: dumpObj d (JObj.cons k2 v2 r)

end

/-- The content `json.dump(parsed, f, indent=2)` writes for a parsed value. -/
def dumpsTop (v : PyJson) : List Char := dumpsV 0 v

/-- JSON whitespace skipped by Python's decoder (`[ \t\n\r]`). -/
def jsonSpace (c : Char) : Bool :=
  c.toNat == 32 || c.toNat == 9 || c.toNat == 10 || c.toNat == 13

/-- Drop leading JSON whitespace. -/
def skipWS (l : List Char) : List Char := l.dropWhile jsonSpace

/-- Decimal digit test. -/
def isDigitCh (c : Char) : Bool := 48 ≤ c.toNat && c.toNat ≤ 57

/-- Hexadecimal digit test (both cases, as Python's decoder accepts). -/
def isHexCh (c : Char) : Bool :=
  (48 ≤ c.toNat && c.toNat ≤ 57) || (97 ≤ c.toNat && c.toNat ≤ 102) ||
    (65 ≤ c.toNat && c.toNat ≤ 70)

/-- Value of a hexadecimal digit character. -/
def hexVal (c : Char) : Nat :=
  if 48 ≤ c.toNat && c.toNat ≤ 57 then c.toNat - 48
  else if 97 ≤ c.toNat && c.toNat ≤ 102 then c.toNat - 87
  else c.toNat - 55

/-- Character from a scalar value (guards in the parser keep it valid). -/
def mkChar (n : Nat) : Char := Char.ofNat n

/-- Read exactly four hexadecimal digits, as after `\u`. -/
def readHex4 : List Char → Option (Nat × List Char)
  | h1 :: h2 :: h3 :: h4 :: r =>
    if isHexCh h1 && isHexCh h2 && isHexCh h3 && isHexCh h4 then
      some (((hexVal h1 * 16 + hexVal h2) * 16 + hexVal h3) * 16 + hexVal h4, r)
    else none
  | _ => none

/-- Decode one `\uXXXX` escape (the input starts after the `u`), combining a
high surrogate with a following `\uYYYY` low surrogate into one scalar value.
A lone surrogate escape is rejected: Python would build a lone-surrogate
`str`, which has no `Char` counterpart. -/
def decodeUEsc (l : List Char) : Option (Char × List Char) :=
  match readHex4 l with
  | none => none
  | some (n, r3) =>
    if 55296 ≤ n && n ≤ 56319 then
      match r3 with
      | b :: u :: rest2 =>
        if b.toNat == 92 && u.toNat == 117 then
          match readHex4 rest2 with
          | none => none
          | some (m, r4) =>
            if 56320 ≤ m && m ≤ 57343 then
              some (mkChar (65536 + (n - 55296) * 1024 + (m - 56320)), r4)
            else none
        else none
      | _ => none
    else if 56320 ≤ n && n ≤ 57343 then none
    else some (mkChar n, r3)

/-- The named-escape table of Python's decoder (`BACKSLASH` dict). -/
def escTable (e : Char) : Option Char :=
  if e == '"' then some '"' else if e == '\\' then some '\\'
  else if e == '/' then some '/' else if e == 'b' then some '\x08'
  else if e == 'f' then some '\x0c' else if e == 'n' then some '\n'
  else if e == 'r' then some '\r' else if e == 't' then some '\t'
  else none

/-- Body of a JSON string after the opening quote: literal characters (raw
controls rejected, as in Python's strict mode), named escapes, and `\uXXXX`
escapes.  Fuel-driven; one unit of fuel is spent per decoded character, so any
fuel above the decoded length gives the function's true value. -/
def parseStrBody : Nat → List Char → Option (List Char × List Char)
  | 0, _ => none
  | fuel+1, l =>
    match l with
    | [] => none
    | c :: r =>
      if c.toNat == 34 then some ([], r)
      else if c.toNat == 92 then
        match r with
        | [] => none
        | e :: r2 =>
          if e == 'u' then
            match decodeUEsc r2 with
            | none => none
            | some (ch, r3) => (parseStrBody fuel r3).map (fun p => (ch :: p.1, p.2))
          else
            match escTable e with
            | none => none
            | some ch => (parseStrBody fuel r2).map (fun p => (ch :: p.1, p.2))
      else if c.toNat < 32 then none
      else (parseStrBody fuel r).map (fun p => (c :: p.1, p.2))

/-- Value of a digit string, most significant digit first. -/
def decodeDigits (ds : List Char) : Nat := ds.foldl (fun a c => 10 * a + (c.toNat - 48)) 0

/-- Unsigned integer literal: Python's number grammar `(0|[1-9][0-9]*)`, with
float syntax (`.`/`e`/`E` continuation) outside the model's scope (rejected). -/
def parseUNum (l : List Char) : Option (Nat × List Char) :=
  match l.takeWhile isDigitCh, l.dropWhile isDigitCh with
  | [], _ => none
  | d0 :: ds, rest =>
    if d0.toNat == 48 && !ds.isEmpty then none
    else
      match rest with
      | c :: _ =>
        if c.toNat == 46 || c.toNat == 101 || c.toNat == 69 then none
        else some (decodeDigits (d0 :: ds), rest)
      | [] => some (decodeDigits (d0 :: ds), [])

/-- Signed integer literal. -/
def parseNumber (l : List Char) : Option (PyJson × List Char) :=
  match l with
  | c :: r =>
    if c.toNat == 45 then (parseUNum r).map (fun p => (PyJson.int (-(p.1 : Int)), p.2))
    else (parseUNum l).map (fun p => (PyJson.int (p.1 : Int), p.2))
  | [] => none

/-- Lookup in an object, first matching key. -/
def jobjFind (k : List Char) : JObj → Option PyJson
  | .nil => none
  | .cons k2 v r => if k2 = k then some v else jobjFind k r

/-- Remove the first member with the given key. -/
def jobjErase (k : List Char) : JObj → JObj
  | .nil => .nil
  | .cons k2 v r => if k2 = k then r else .cons k2 v (jobjErase k r)

/-- Key membership test. -/
def jobjHasKey (k : List Char) (o : JObj) : Bool := (jobjFind k o).isSome

/-- Prepend member `(k, v)` to the members parsed after it, with Python `dict`
duplicate-key semantics: the first occurrence fixes the position, the last
occurrence fixes the value. -/
def jobjCombine (k : List Char) (v : PyJson) (o : JObj) : JObj :=
  match jobjFind k o with
  | some v2 => .cons k v2 (jobjErase k o)
  | none => .cons k v o

/-- Consume one expected character, given by its code point. -/
def expectCh (n : Nat) : List Char → Option (List Char)
  | c :: r => if c.toNat == n then some r else none
  | [] => none

/-- Recognize the tail of the literal `true` (after its `t`). -/
def parseTrue : List Char → Option (PyJson × List Char)
  | 'r' :: 'u' :: 'e' :: r2 => some (.bool true, r2)
  | _ => none

/-- Recognize the tail of the literal `false` (after its `f`). -/
def parseFalse : List Char → Option (PyJson × List Char)
  | 'a' :: 'l' :: 's' :: 'e' :: r2 => some (.bool false, r2)
  | _ => none

/-- Recognize the tail of the literal `null` (after its `n`). -/
def parseNull : List Char → Option (PyJson × List Char)
  | 'u' :: 'l' :: 'l' :: r2 => some (.null, r2)
  | _ => none

mutual

/-- Fuel-driven JSON value parser modelling Python `json.loads`' scanner: the
input starts at a non-whitespace position; containers, strings, literals and
integer numbers are recognized (floats are outside the model). -/
def parseVal : Nat → List Char → Option (PyJson × List Char)
  | 0, _ => none
  | fuel+1, l =>
    match l with
    | [] => none
    | c :: r =>
      if c.toNat == 123 then
        match expectCh 125 (skipWS r) with
        | some r2 => some (.obj .nil, r2)
        | none => (parseMembers fuel (skipWS r)).map (fun p => (PyJson.obj p.1, p.2))
      else if c.toNat == 91 then
        match expectCh 93 (skipWS r) with
        | some r2 => some (.arr .nil, r2)
        | none => (parseItems fuel (skipWS r)).map (fun p => (PyJson.arr p.1, p.2))
      else if c.toNat == 34 then
        (parseStrBody (r.length + 1) r).map (fun p => (PyJson.str p.1, p.2))
      else if c.toNat == 116 then parseTrue r
      else if c.toNat == 102 then parseFalse r
      else if c.toNat == 110 then parseNull r
      else if c.toNat == 45 || isDigitCh c then parseNumber l
      else none

/-- One or more comma-separated array items followed by `]`. -/
def parseItems : Nat → List Char → Option (JArr × List Char)
  | 0, _ => none
  | fuel+1, l =>
    match parseVal fuel l with
    | none => none
    | some (v, r) =>
      match expectCh 93 (skipWS r) with
      | some r2 => some (.cons v .nil, r2)
      | none =>
        match expectCh 44 (skipWS r) with
        | some r2 =>
          match parseItems fuel (skipWS r2) with
          | none => none
          | some (vs, r3) => some (.cons v vs, r3)
        | none => none

/-- One or more comma-separated `"key": value` members followed by the closing
brace, combined with Python `dict` insertion semantics. -/
def parseMembers : Nat → List Char → Option (JObj × List Char)
  | 0, _ => none
  | fuel+1, l =>
    match l with
    | c :: r =>
      if c.toNat == 34 then
        match parseStrBody (r.length + 1) r with
        | none => none
        | some (k, r1) =>
          match expectCh 58 (skipWS r1) with
          | none => none
          | some r2 =>
            match parseVal fuel (skipWS r2) with
            | none => none
            | some (v, r3) =>
              match expectCh 125 (skipWS r3) with
              | some r4 => some (.cons k v .nil, r4)
              | none =>
                match expectCh 44 (skipWS r3) with
                | some r4 =>
                  match parseMembers fuel (skipWS r4) with
                  | none => none
                  | some (o, r5) => some (jobjCombine k v o, r5)
                | none => none
      else none
    | [] => none

end

/-- Python `json.loads`: skip leading whitespace, parse one value, require only
whitespace after it.  `none` models a raised `json.JSONDecodeError`. -/
def loads (s : List Char) : Option PyJson :=
  match parseVal (s.length + 1) (skipWS s) with
  | some (v, rest) => if skipWS rest = [] then some v else none
  | none => none

mutual

/-- Well-formedness of a JSON value: object keys are pairwise distinct at every
level, as holds for every value `json.loads` can produce (Python dicts). -/
def wfJ : PyJson → Bool
  | .null => true
  | .bool _ => true
  | .int _ => true
  | .str _ => true
  | .arr xs => wfA xs
  | .obj o => wfO o

/-- Well-formedness of all array elements. -/
def wfA : JArr → Bool
  | .nil => true
  | .cons x xs => wfJ x && wfA xs

/-- Well-formedness of an object: no duplicate keys, values well-formed. -/
def wfO : JObj → Bool
  | .nil => true
  | .cons k v r => !jobjHasKey k r && wfJ v && wfO r

end

mutual

/-- Fuel lower bound for the parser to reconstruct a value from its dump. -/
def jneed : PyJson → Nat
  | .null => 1
  | .bool _ => 1
  | .int _ => 1
  | .str _ => 1
  | .arr xs => 1 + jneedA xs
  | .obj kvs => 1 + jneedO kvs

/-- Fuel lower bound for array items. -/
def jneedA : JArr → Nat
  | .nil => 0
  | .cons x xs => 1 + jneed x + jneedA xs

/-- Fuel lower bound for object members. -/
def jneedO : JObj → Nat
  | .nil => 0
  | .cons _ v r => 1 + jneed v + jneedO r

end

mutual

/-- Parsed HTML node: an element with tag, class list and children, or text.
The HTML parser itself is an external capability; documents enter the model
already in tree form. -/
inductive HNode where
  | elem (tag : List Char) (classes : List (List Char)) (children : HNodes) : HNode
  | txt (s : List Char) : HNode

/-- Sibling list of HTML nodes. -/
inductive HNodes where
  | nil : HNodes
  | cons (hd : HNode) (tl : HNodes) : HNodes

end

mutual

/-- BeautifulSoup `get_text()`: concatenation of all descendant strings. -/
def getText : HNode → List Char
  | .txt s => s
  | .elem _ _ ch => getTexts ch

/-- Concatenated text of a sibling list. -/
def getTexts : HNodes → List Char
  | .nil => []
  | .cons n ns => getText n ++ getTexts ns

end

/-- The `find_previous(["h2", "h3"])` tag filter. -/
def isHeadingTag (tag : List Char) : Bool := tag == lc "h2" || tag == lc "h3"

/-- The selector union `"div.hljs, pre, code"` applied to one element. -/
def matchesSel (tag : List Char) (classes : List (List Char)) : Bool :=
  (tag == lc "div" && classes.contains (lc "hljs")) || tag == lc "pre" || tag == lc "code"

/-- Candidate block: its `get_text()` and the text of its nearest preceding
h2/h3 heading in parse order, if any. -/
structure Cand where
  text : List Char
  heading : Option (List Char)
deriving DecidableEq

mutual

/-- Pre-order scan producing `soup.select("div.hljs, pre, code")` matches in
document order, pairing each with the most recently seen h2/h3 text, which is
exactly what `block.find_previous(["h2", "h3"])` returns (elements preceding
the block in parse order, ancestors included, nearest first). -/
def scanN : Option (List Char) → HNode → Option (List Char) × List Cand
  | last, .txt _ => (last, [])
  | last, .elem tag classes ch =>
    let selfCand : List Cand := if matchesSel tag classes then [⟨getTexts ch, last⟩] else []
    let last1 := if isHeadingTag tag then some (getTexts ch) else last
    let r := scanNs last1 ch
    (r.1, selfCand ++ r.2)

/-- Scan of a sibling list, threading the most recently seen heading. -/
def scanNs : Option (List Char) → HNodes → Option (List Char) × List Cand
  | last, .nil => (last, [])
  | last, .cons n ns =>
    let r1 := scanN last n
    let r2 := scanNs r1.1 ns
    (r2.1, r1.2 ++ r2.2)

end

/-- All candidate blocks of a document, in document order. -/
def candidates (root : HNode) : List Cand := (scanN none root).2

/-- The fixed output directory `OUT_DIR`. -/
def outDir : List Char := lc "src/test/resources/strava"

/-- One successful save: the heading used (if any), the derived base name, and
the exact file content written. -/
structure Entry where
  heading : Option (List Char)
  base : List Char
  content : List Char
deriving DecidableEq

/-- The path `os.path.join(OUT_DIR, f"{title}.json")` of a save. -/
def Entry.fname (e : Entry) : List Char := outDir ++ '/' :: e.base ++ lc ".json"

/-- The pre-parse filter `text.startswith("{") or text.startswith("[")`. -/
def startsJson : List Char → Bool
  | c :: _ => c.toNat == 123 || c.toNat == 91
  | [] => false

/-- The fallback title `f"example-{saved+1}"`. -/
def fallbackBase (saved : Nat) : List Char := lc "example-" ++ natChars (saved + 1)

/-- One iteration of the extraction loop on a candidate block, given the count
of previously saved examples: filter on the first character, parse, derive the
name from the heading or the fallback counter, and save.  Returns the new
count and the save performed, if any. -/
def processCand (saved : Nat) (c : Cand) : Nat × Option Entry :=
  if !startsJson (pyStrip c.text) then (saved, none)
  else
    match loads (pyStrip c.text) with
    | none => (saved, none)
    | some parsed =>
      (saved + 1, some ⟨c.heading,
        match c.heading with
        | some h => cleanName h
        | none => fallbackBase saved,
        dumpsTop parsed⟩)

/-- The extraction loop over the candidate list, accumulating the save log. -/
def runCands : Nat → List Cand → Nat × List Entry
  | saved, [] => (saved, [])
  | saved, c :: cs =>
    match processCand saved c with
    | (s1, none) => runCands s1 cs
    | (s1, some e) =>
      let r := runCands s1 cs
      (r.1, e :: r.2)

/-- Source `extract(soup)`: the final `saved` count and the ordered write log. -/
def extract (root : HNode) : Nat × List Entry := runCands 0 (candidates root)

/-- An HTTP response as `requests.get` returns it: final status code and body
(the body is modelled at the level of its parsed tree, HTML parsing being an
external capability). -/
structure HttpResponse where
  status : Nat
  body : HNode

/-- Failure modes of the fetch stage. -/
inductive FetchErr where
  | network : FetchErr
  | httpStatus (code : Nat) : FetchErr
deriving DecidableEq

/-- Source `fetch()`: `requests.get` either raises a network error (the
`Except.error` input) or returns a response; `resp.raise_for_status()` raises
exactly for status codes 400-599. -/
def fetch (input : Except Unit HttpResponse) : Except FetchErr HNode :=
  match input with
  | .error _ => .error .network
  | .ok r => if 400 ≤ r.status ∧ r.status < 600 then .error (.httpStatus r.status) else .ok r.body

/-- Source `main()`: fetch, then extract.  An error propagates before any
extraction work happens, so an error result carries no write log at all. -/
def mainRun (input : Except Unit HttpResponse) : Except FetchErr (Nat × List Entry) :=
  match fetch input with
  | .error e => .error e
  | .ok soup => .ok (extract soup)

/-- The file-name invariant of the spec: only lower-case letters, digits and
hyphens, and no leading or trailing hyphen. -/
def goodName (l : List Char) : Prop :=
  (∀ c ∈ l, allowedChar c = true) ∧ l.head? ≠ some '-' ∧ l.getLast? ≠ some '-'

/-- Conversion from a Lean list to the sibling-list spine. -/
def toHNodes : List HNode → HNodes
  | [] => .nil
  | n :: ns => .cons n (toHNodes ns)

/-- Element-node builder for concrete test documents. -/
def nEl (tag : String) (classes : List String) (children : List HNode) : HNode :=
  .elem (lc tag) (classes.map lc) (toHNodes children)

/-- Text-node builder for concrete test documents. -/
def nTx (s : String) : HNode := .txt (lc s)

/-- Concrete document: a heading followed by an empty-object code block. -/
def docC6 : HNode :=
  nEl "html" [] [nEl "h2" [] [nTx "Get Activity"], nEl "pre" [] [nTx "\x7b\x7d"]]

/-- Concrete document for the spec scenario: heading `Get Activity` directly
before a code block containing a two-key object. -/
def docC7 : HNode :=
  nEl "html" []
    [nEl "h2" [] [nTx "Get Activity"],
     nEl "pre" [] [nTx "\x7b\"id\": 1, \"name\": \"ride\"\x7d"]]

/-- Concrete document: two JSON code blocks with no heading anywhere. -/
def docC1 : HNode :=
  nEl "html" [] [nEl "pre" [] [nTx "[1,2,3]"], nEl "pre" [] [nTx "\x7b\"a\":1\x7d"]]

/-- Concrete document: a heading whose text normalizes to the empty string,
followed by a JSON code block. -/
def docC8 : HNode :=
  nEl "html" [] [nEl "h2" [] [nTx "!!!"], nEl "pre" [] [nTx "[1]"]]

/-- Document family for the nested-markup case: a heading, then a `code`
element nested inside a `pre` element whose only text is `j`. -/
def mkNested (h j : List Char) : HNode :=
  .elem (lc "html") []
    (.cons (.elem (lc "h2") [] (.cons (.txt h) .nil))
      (.cons (.elem (lc "pre") [] (.cons (.elem (lc "code") [] (.cons (.txt j) .nil)) .nil))
        .nil))

/-- A separator context for a serialized number: the remaining input does not
begin with a character that would extend the number literal (a digit, `.`,
`e` or `E`).  Every context in which the serializer emits a number satisfies
this (end of input, comma, newline, bracket, brace). -/
def numSep : List Char → Bool
  | [] => true
  | c :: _ => !isDigitCh c && c.toNat != 46 && c.toNat != 101 && c.toNat != 69

/-- What follows a serialized array element: either the closing context, or a
comma, a newline and the remaining items. -/
def arrTail (d : Nat) (xs : JArr) (close : List Char) : List Char :=
  match xs with
  | .nil => close
  | .cons _ _ => ',' :: '\n' :: (dumpArr d xs ++ close)

/-- What follows a serialized object member: either the closing context, or a
comma, a newline and the remaining members. -/
def objTail (d : Nat) (r : JObj) (close : List Char) : List Char :=
  match r with
  | .nil => close
  | .cons _ _ _ => ',' :: '\n' :: (dumpObj d r ++ close)

/-- Run-state of the collapse pass after processing a list: whether the last
character processed was outside the allowed class. -/
def runFlag (b : Bool) : List Char → Bool
  | [] => b
  | c :: cs => runFlag (!allowedChar c) cs

/-! Character-level facts. -/

theorem charToNat_lt (c : Char) : c.toNat < 1114112 := by
  have h := c.valid
  rcases h with h | ⟨_, h⟩
  · simp only [Char.toNat]; omega
  · simp only [Char.toNat]; omega

theorem charToNat_inj {a b : Char} (h : a.toNat = b.toNat) : a = b :=
  Char.ext (UInt32.eq_of_toBitVec_eq (BitVec.eq_of_toNat_eq h))

theorem charOfNat_toNat {n : Nat} (h : n.isValidChar) : (Char.ofNat n).toNat = n := by
  simp [Char.ofNat, h, Char.ofNatAux, Char.toNat, UInt32.toNat, UInt32.ofNatTruncate,
    UInt32.ofNat, BitVec.ofNat]

theorem charOfNat_toNat_ascii {n : Nat} (h : n < 55296) : (Char.ofNat n).toNat = n :=
  charOfNat_toNat (Or.inl h)

/-! Facts about the Python strip model. -/

theorem dropTrailing_eq (p : Char → Bool) (l : List Char) :
    dropTrailing p l = List.rdropWhile p l := rfl

theorem mem_pyStripBy {p : Char → Bool} {l : List Char} {c : Char}
    (h : c ∈ pyStripBy p l) : c ∈ l := by
  unfold pyStripBy at h
  rw [dropTrailing_eq] at h
  have h1 : c ∈ l.dropWhile p := (List.rdropWhile_prefix _ _).sublist.subset h
  exact (List.dropWhile_sublist _).subset h1

theorem dropWhile_head_false {α : Type} {p : α → Bool} {l t : List α} {c : α}
    (h : l.dropWhile p = c :: t) : p c = false := by
  induction l with
  | nil => simp at h
  | cons a l ih =>
    by_cases hp : p a
    · rw [List.dropWhile_cons_of_pos hp] at h; exact ih h
    · rw [List.dropWhile_cons_of_neg hp] at h
      cases h
      simpa using hp

theorem pyStripBy_head {p : Char → Bool} {l t : List Char} {c : Char}
    (h : pyStripBy p l = c :: t) : p c = false := by
  unfold pyStripBy at h
  rw [dropTrailing_eq] at h
  have hpre := List.rdropWhile_prefix p (l.dropWhile p)
  rw [h] at hpre
  obtain ⟨s, hs⟩ := hpre
  exact dropWhile_head_false (l := l) (by rw [← hs]; rfl)

theorem pyStripBy_last {p : Char → Bool} {l : List Char} {c : Char}
    (h : (pyStripBy p l).getLast? = some c) : p c = false := by
  unfold pyStripBy at h
  rw [dropTrailing_eq] at h
  have hne : List.rdropWhile p (l.dropWhile p) ≠ [] := by
    intro hx; rw [hx] at h; simp at h
  have hlast := List.rdropWhile_last_not p (l.dropWhile p) hne
  rw [List.getLast?_eq_getLast _ hne] at h
  have : (List.rdropWhile p (l.dropWhile p)).getLast hne = c := by
    exact Option.some.inj h
  rw [this] at hlast
  simpa using hlast

theorem pyStripBy_eq_self {p : Char → Bool} {l : List Char}
    (h : ∀ c ∈ l, p c = false) : pyStripBy p l = l := by
  unfold pyStripBy
  rw [dropTrailing_eq]
  have h1 : l.dropWhile p = l := by
    cases l with
    | nil => rfl
    | cons a t =>
      rw [List.dropWhile_cons_of_neg]
      simp [h a (by simp)]
  rw [h1]
  rw [List.rdropWhile_eq_self_iff]
  intro hl
  simp [h _ (List.getLast_mem hl)]

theorem pyStripBy_of_ends {p : Char → Bool} {x : List Char}
    (hh : ∀ c t, x = c :: t → p c = false)
    (hl : ∀ c, x.getLast? = some c → p c = false) : pyStripBy p x = x := by
  unfold pyStripBy
  rw [dropTrailing_eq]
  have h1 : x.dropWhile p = x := by
    cases hc : x with
    | nil => rfl
    | cons a t =>
      rw [List.dropWhile_cons_of_neg]
      simp [hh a t hc]
  rw [h1, List.rdropWhile_eq_self_iff]
  intro hne
  simp [hl _ (List.getLast?_eq_getLast _ hne)]

theorem pyStripBy_idem (p : Char → Bool) (l : List Char) :
    pyStripBy p (pyStripBy p l) = pyStripBy p l :=
  pyStripBy_of_ends (fun _ _ hx => pyStripBy_head hx) (fun _ hx => pyStripBy_last hx)

/-! Facts about the name normalization. -/

theorem collapseGo_mem {b : Bool} {l : List Char} {c : Char} (h : c ∈ collapseGo b l) :
    allowedChar c = true := by
  induction l generalizing b with
  | nil => simp [collapseGo] at h
  | cons a t ih =>
    rw [collapseGo] at h
    by_cases ha : allowedChar a
    · rw [if_pos ha] at h
      rcases List.mem_cons.mp h with h | h
      · rw [h]; exact ha
      · exact ih h
    · rw [if_neg ha] at h
      by_cases hb : b
      · simp only [hb, if_pos] at h
        exact ih h
      · simp only [hb] at h
        rcases List.mem_cons.mp h with h | h
        · rw [h]; decide
        · exact ih h

theorem collapseGo_eq_self {l : List Char} (h : ∀ c ∈ l, allowedChar c = true) (b : Bool) :
    collapseGo b l = l := by
  induction l generalizing b with
  | nil => rfl
  | cons a t ih =>
    rw [collapseGo, if_pos (h a (by simp))]
    rw [ih (fun c hc => h c (by simp [hc])) false]

theorem allowedChar_elim {c : Char} (h : allowedChar c = true) :
    (97 ≤ c.toNat ∧ c.toNat ≤ 122) ∨ (48 ≤ c.toNat ∧ c.toNat ≤ 57) ∨ c.toNat = 45 := by
  simpa [allowedChar, or_assoc] using h

theorem pyLower_allowed {c : Char} (h : allowedChar c = true) : pyLower c = c := by
  unfold pyLower
  rw [if_neg]
  have := allowedChar_elim h
  simp only [Bool.and_eq_true, decide_eq_true_eq, not_and]
  omega

theorem allowed_not_space {c : Char} (h : allowedChar c = true) : pySpace c = false := by
  have := allowedChar_elim h
  simp only [pySpace, Bool.or_eq_false_iff, beq_eq_false_iff_ne, ne_eq]
  omega

theorem map_eq_self {f : Char → Char} {l : List Char} (h : ∀ c ∈ l, f c = c) :
    l.map f = l := by
  induction l with
  | nil => rfl
  | cons a t ih =>
    simp only [List.map_cons, h a (by simp), ih (fun c hc => h c (by simp [hc]))]

theorem cleanName_fix {x : List Char} (h : ∀ c ∈ x, allowedChar c = true)
    (hh : ∀ c t, x = c :: t → hyChar c = false)
    (hl : ∀ c, x.getLast? = some c → hyChar c = false) : cleanName x = x := by
  unfold cleanName
  rw [show pyStrip x = x from pyStripBy_eq_self (fun c hc => allowed_not_space (h c hc))]
  rw [map_eq_self (fun c hc => pyLower_allowed (h c hc))]
  rw [show collapseRuns x = x from collapseGo_eq_self h false]
  exact pyStripBy_of_ends hh hl

theorem cleanName_mem {s : List Char} {c : Char} (h : c ∈ cleanName s) :
    allowedChar c = true :=
  collapseGo_mem (mem_pyStripBy h)

/-- Claim C5: the name-normalization function is idempotent — for every string
`s`, `clean_name(clean_name(s)) = clean_name(s)`; an already-normalized slug
is a fixed point of `clean_name`. -/
theorem claim_C5 (s : List Char) : cleanName (cleanName s) = cleanName s :=
  cleanName_fix (fun _ hc => cleanName_mem hc)
    (fun _ _ hx => pyStripBy_head hx)
    (fun _ hx => pyStripBy_last hx)

/-! Equivalence of the source normalization with the spec's wording of it
(the source's extra whitespace pre-strip changes nothing: whitespace is
outside the allowed class, so it is collapsed into hyphens that the final
hyphen-strip removes). -/

theorem collapseGo_concat_dis {w : Char} (hw : allowedChar w = false) (l : List Char)
    (b : Bool) :
    collapseGo b (l ++ [w]) = collapseGo b l ++ (if runFlag b l then [] else ['-']) := by
  induction l generalizing b with
  | nil =>
    by_cases hb : b <;> simp [collapseGo, runFlag, hw, hb]
  | cons a t ih =>
    by_cases ha : allowedChar a
    · simp [collapseGo, ha, ih false, runFlag]
    · by_cases hb : b <;> simp [collapseGo, ha, hb, ih true, runFlag]

theorem dropWhile_hy_collapseGo (l : List Char) :
    (collapseGo true l).dropWhile hyChar = (collapseGo false l).dropWhile hyChar := by
  cases l with
  | nil => rfl
  | cons a t =>
    by_cases ha : allowedChar a
    · simp [collapseGo, ha]
    · rw [show collapseGo true (a :: t) = collapseGo true t by simp [collapseGo, ha]]
      rw [show collapseGo false (a :: t) = '-' :: collapseGo true t by simp [collapseGo, ha]]
      rw [List.dropWhile_cons_of_pos (by decide)]

theorem stripHy_collapse_cons_dis {w : Char} (hw : allowedChar w = false) (l : List Char) :
    pyStripBy hyChar (collapseRuns (w :: l)) = pyStripBy hyChar (collapseRuns l) := by
  unfold pyStripBy collapseRuns
  congr 1
  rw [show collapseGo false (w :: l) = '-' :: collapseGo true l by
    simp [collapseGo, hw]]
  rw [List.dropWhile_cons_of_pos (by decide)]
  exact dropWhile_hy_collapseGo l

theorem stripHy_concat_hyphen (x : List Char) :
    pyStripBy hyChar (x ++ ['-']) = pyStripBy hyChar x := by
  unfold pyStripBy
  rw [List.dropWhile_append]
  by_cases he : (x.dropWhile hyChar).isEmpty
  · rw [if_pos he]
    rw [List.isEmpty_iff] at he
    rw [he]
    decide
  · rw [if_neg he, dropTrailing_eq, dropTrailing_eq, List.rdropWhile_concat_pos]
    decide

theorem stripHy_collapse_concat_dis {w : Char} (hw : allowedChar w = false) (l : List Char) :
    pyStripBy hyChar (collapseRuns (l ++ [w])) = pyStripBy hyChar (collapseRuns l) := by
  unfold collapseRuns
  rw [collapseGo_concat_dis hw l false]
  by_cases hr : runFlag false l
  · simp [hr]
  · simp only [hr, if_false, Bool.false_eq_true]
    exact stripHy_concat_hyphen _

theorem space_not_allowed {c : Char} (h : pySpace c = true) : allowedChar c = false := by
  simp only [pySpace, Bool.or_eq_true, beq_iff_eq] at h
  simp only [allowedChar, Bool.or_eq_false_iff, Bool.and_eq_false_iff,
    beq_eq_false_iff_ne, ne_eq, decide_eq_false_iff_not, not_le]
  omega

theorem stripHy_collapse_dropWS (l : List Char) :
    pyStripBy hyChar (collapseRuns (l.dropWhile pySpace)) =
      pyStripBy hyChar (collapseRuns l) := by
  induction l with
  | nil => rfl
  | cons a t ih =>
    by_cases ha : pySpace a
    · rw [List.dropWhile_cons_of_pos ha, ih,
        ← stripHy_collapse_cons_dis (space_not_allowed ha) t]
    · rw [List.dropWhile_cons_of_neg ha]

theorem stripHy_collapse_dropTrailingWS (l : List Char) :
    pyStripBy hyChar (collapseRuns (dropTrailing pySpace l)) =
      pyStripBy hyChar (collapseRuns l) := by
  induction l using List.reverseRecOn with
  | nil => rfl
  | append_singleton t a ih =>
    by_cases ha : pySpace a
    · rw [dropTrailing_eq, List.rdropWhile_concat_pos pySpace t a ha, ← dropTrailing_eq, ih,
        stripHy_collapse_concat_dis (space_not_allowed ha) t]
    · rw [dropTrailing_eq, List.rdropWhile_concat_neg pySpace t a ha]

theorem map_dropWhile_comm {f : Char → Char} {p : Char → Bool}
    (hf : ∀ c, p (f c) = p c) (l : List Char) :
    (l.dropWhile p).map f = (l.map f).dropWhile p := by
  induction l with
  | nil => rfl
  | cons a t ih =>
    by_cases ha : p a
    · rw [List.dropWhile_cons_of_pos ha, List.map_cons,
        List.dropWhile_cons_of_pos (by rw [hf]; exact ha), ih]
    · rw [List.dropWhile_cons_of_neg ha, List.map_cons,
        List.dropWhile_cons_of_neg (by rw [hf]; exact ha)]

theorem map_dropTrailing_comm {f : Char → Char} {p : Char → Bool}
    (hf : ∀ c, p (f c) = p c) (l : List Char) :
    (dropTrailing p l).map f = dropTrailing p (l.map f) := by
  unfold dropTrailing
  rw [List.map_reverse, map_dropWhile_comm hf, List.map_reverse]

theorem pySpace_pyLower (c : Char) : pySpace (pyLower c) = pySpace c := by
  unfold pyLower
  by_cases h : 65 ≤ c.toNat ∧ c.toNat ≤ 90
  · rw [if_pos (by simpa using h)]
    have h1 : (Char.ofNat (c.toNat + 32)).toNat = c.toNat + 32 :=
      charOfNat_toNat_ascii (by omega)
    have hL : pySpace (Char.ofNat (c.toNat + 32)) = false := by
      simp only [pySpace, h1, Bool.or_eq_false_iff, beq_eq_false_iff_ne, ne_eq]
      omega
    have hR : pySpace c = false := by
      simp only [pySpace, Bool.or_eq_false_iff, beq_eq_false_iff_ne, ne_eq]
      omega
    rw [hL, hR]
  · rw [if_neg (by simpa using h)]

theorem map_pyLower_pyStrip (s : List Char) :
    (pyStrip s).map pyLower = pyStrip (s.map pyLower) := by
  unfold pyStrip pyStripBy
  rw [map_dropTrailing_comm pySpace_pyLower, map_dropWhile_comm pySpace_pyLower]

theorem cleanName_eq_spec (s : List Char) : cleanName s = cleanNameSpec s := by
  unfold cleanName cleanNameSpec
  rw [map_pyLower_pyStrip]
  rw [show pyStrip (s.map pyLower) =
    dropTrailing pySpace ((s.map pyLower).dropWhile pySpace) from rfl]
  rw [stripHy_collapse_dropTrailingWS, stripHy_collapse_dropWS]

/-! Facts about decimal representations. -/

theorem digitChar_toNat {d : Nat} (h : d < 10) : (digitChar d).toNat = 48 + d :=
  charOfNat_toNat_ascii (by omega)

theorem natCharsGo_mem {fuel n : Nat} (hf : n < fuel) {c : Char}
    (h : c ∈ natCharsGo fuel n) : 48 ≤ c.toNat ∧ c.toNat ≤ 57 := by
  induction fuel generalizing n with
  | zero => omega
  | succ f ih =>
    rw [natCharsGo] at h
    by_cases h10 : n < 10
    · rw [if_pos h10] at h
      simp only [List.mem_singleton] at h
      subst h
      rw [digitChar_toNat h10]
      omega
    · rw [if_neg h10] at h
      rcases List.mem_append.mp h with h | h
      · have hd : n / 10 < f := by
          have := Nat.div_lt_self (by omega : 0 < n) (by omega : 1 < 10)
          omega
        exact ih hd h
      · simp only [List.mem_singleton] at h
        subst h
        have hm : n % 10 < 10 := Nat.mod_lt n (by omega)
        rw [digitChar_toNat hm]
        omega

theorem natCharsGo_ne_nil {fuel n : Nat} (hf : n < fuel) : natCharsGo fuel n ≠ [] := by
  cases fuel with
  | zero => omega
  | succ f =>
    rw [natCharsGo]
    by_cases h10 : n < 10
    · simp [h10]
    · simp [h10]

theorem natCharsGo_head {fuel n : Nat} (hf : n < fuel) (hn : n ≠ 0) {c : Char}
    {t : List Char} (h : natCharsGo fuel n = c :: t) : c.toNat ≠ 48 := by
  induction fuel generalizing n c t with
  | zero => omega
  | succ f ih =>
    rw [natCharsGo] at h
    by_cases h10 : n < 10
    · rw [if_pos h10] at h
      injection h with h1 h2
      rw [← h1, digitChar_toNat h10]
      omega
    · rw [if_neg h10] at h
      have hd : n / 10 < f := by
        have := Nat.div_lt_self (by omega : 0 < n) (by omega : 1 < 10)
        omega
      have hd0 : n / 10 ≠ 0 := by
        have := Nat.div_pos (by omega : 10 ≤ n) (by omega : 0 < 10)
        omega
      cases hl : natCharsGo f (n / 10) with
      | nil => exact absurd hl (natCharsGo_ne_nil hd)
      | cons c0 t0 =>
        rw [hl] at h
        simp only [List.cons_append, List.cons.injEq] at h
        rw [← h.1] at *
        exact ih hd hd0 hl

theorem decode_natCharsGo {fuel n : Nat} (hf : n < fuel) (a : Nat) :
    List.foldl (fun acc c => 10 * acc + (c.toNat - 48)) a (natCharsGo fuel n) =
      a * 10 ^ (natCharsGo fuel n).length + n := by
  induction fuel generalizing n a with
  | zero => omega
  | succ f ih =>
    rw [natCharsGo]
    by_cases h10 : n < 10
    · rw [if_pos h10]
      simp only [List.foldl_cons, List.foldl_nil, List.length_singleton, pow_one,
        digitChar_toNat h10]
      omega
    · rw [if_neg h10]
      have hd : n / 10 < f := by
        have := Nat.div_lt_self (by omega : 0 < n) (by omega : 1 < 10)
        omega
      have hm : n % 10 < 10 := Nat.mod_lt n (by omega)
      rw [List.foldl_append, ih hd a]
      simp only [List.foldl_cons, List.foldl_nil, List.length_append,
        List.length_singleton, digitChar_toNat hm]
      have hdm := Nat.div_add_mod n 10
      have hpow : 10 ^ ((natCharsGo f (n / 10)).length + 1) =
          10 ^ (natCharsGo f (n / 10)).length * 10 := pow_succ 10 _
      rw [hpow]
      have : 48 + n % 10 - 48 = n % 10 := by omega
      rw [this]
      ring_nf
      omega

theorem natChars_mem {n : Nat} {c : Char} (h : c ∈ natChars n) :
    48 ≤ c.toNat ∧ c.toNat ≤ 57 :=
  natCharsGo_mem (Nat.lt_succ_self n) h

theorem natChars_ne_nil (n : Nat) : natChars n ≠ [] :=
  natCharsGo_ne_nil (Nat.lt_succ_self n)

theorem natChars_head {n : Nat} (hn : n ≠ 0) {c : Char} {t : List Char}
    (h : natChars n = c :: t) : c.toNat ≠ 48 :=
  natCharsGo_head (Nat.lt_succ_self n) hn h

theorem decodeDigits_natChars (n : Nat) : decodeDigits (natChars n) = n := by
  unfold decodeDigits natChars
  rw [decode_natCharsGo (Nat.lt_succ_self n) 0]
  simp

/-! Claims C2 and C3: the pre-parse filter and the silent parse-failure skip. -/

/-- Claim C2: for every candidate block whose trimmed text does not start with
a brace or a bracket, the extractor writes no file for that block and leaves
the saved counter unchanged; the block is discarded before any JSON parse is
attempted (structurally, `processCand` tests `startsJson` before `loads`). -/
theorem claim_C2 (saved : Nat) (c : Cand)
    (h : startsJson (pyStrip c.text) = false) :
    processCand saved c = (saved, none) := by
  simp [processCand, h]

theorem claim_C2_witness :
    startsJson (pyStrip (lc "hello")) = false ∧
      processCand 0 ⟨lc "hello", none⟩ = (0, none) :=
  ⟨by decide, claim_C2 0 ⟨lc "hello", none⟩ (by decide)⟩

/-- Claim C3: a candidate block whose trimmed text starts with a brace or a
bracket but fails to parse as JSON produces no file, and the run does not
abort: processing the candidate list simply continues with the remaining
candidates, with the saved counter unchanged. -/
theorem claim_C3 (saved : Nat) (c : Cand) (cs : List Cand)
    (hs : startsJson (pyStrip c.text) = true)
    (h : loads (pyStrip c.text) = none) :
    processCand saved c = (saved, none) ∧
      runCands saved (c :: cs) = runCands saved cs := by
  have h1 : processCand saved c = (saved, none) := by
    simp [processCand, hs, h]
  exact ⟨h1, by rw [runCands, h1]⟩

theorem claim_C3_witness :
    startsJson (pyStrip (lc "\x7bnot json")) = true ∧
      loads (pyStrip (lc "\x7bnot json")) = none ∧
      processCand 0 ⟨lc "\x7bnot json", none⟩ = (0, none) ∧
      runCands 0 (⟨lc "\x7bnot json", none⟩ :: []) = runCands 0 [] :=
  ⟨by decide, by rfl,
    (claim_C3 0 ⟨lc "\x7bnot json", none⟩ [] (by decide) (by rfl)).1,
    (claim_C3 0 ⟨lc "\x7bnot json", none⟩ [] (by decide) (by rfl)).2⟩

/-! Claim C6: the output-name invariant. -/

theorem mem_of_getLast?_eq {α : Type} {l : List α} {c : α} (h : l.getLast? = some c) :
    c ∈ l := by
  cases l with
  | nil => simp at h
  | cons a t =>
    have hne : a :: t ≠ [] := by simp
    rw [List.getLast?_eq_getLast _ hne] at h
    rw [← Option.some.inj h]
    exact List.getLast_mem hne

theorem cleanName_good (s : List Char) : goodName (cleanName s) := by
  refine ⟨fun c hc => cleanName_mem hc, ?_, ?_⟩
  · intro hhd
    cases hx : cleanName s with
    | nil => rw [hx] at hhd; simp at hhd
    | cons a t =>
      rw [hx] at hhd
      simp only [List.head?_cons, Option.some.injEq] at hhd
      subst hhd
      have hfalse : hyChar '-' = false := pyStripBy_head hx
      simp [hyChar] at hfalse
  · intro hl
    have hfalse : hyChar '-' = false := pyStripBy_last hl
    simp [hyChar] at hfalse

theorem fallbackBase_good (saved : Nat) : goodName (fallbackBase saved) := by
  unfold fallbackBase goodName
  refine ⟨?_, ?_, ?_⟩
  · intro c hc
    rcases List.mem_append.mp hc with hc | hc
    · have hall : ∀ c ∈ lc "example-", allowedChar c = true := by decide
      exact hall c hc
    · have := natChars_mem hc
      simp only [allowedChar, Bool.or_eq_true, Bool.and_eq_true, decide_eq_true_eq]
      omega
  · intro hhd
    have h2 : (lc "example-" ++ natChars (saved + 1)).head? = some 'e' := rfl
    rw [h2] at hhd
    exact absurd (Option.some.inj hhd) (by decide)
  · intro hl
    rw [List.getLast?_append] at hl
    cases hg : (natChars (saved + 1)).getLast? with
    | none =>
      exact absurd (List.getLast?_eq_getLast _ (natChars_ne_nil _) ▸ hg) (by simp)
    | some c =>
      rw [hg] at hl
      simp only [Option.or_some, Option.some.injEq] at hl
      subst hl
      have := natChars_mem (mem_of_getLast?_eq hg)
      have h45 : ('-').toNat = 45 := by decide
      omega

theorem processCand_good {saved : Nat} {c : Cand} {e : Entry}
    (h : (processCand saved c).2 = some e) : goodName e.base := by
  unfold processCand at h
  by_cases hs : startsJson (pyStrip c.text)
  · rw [hs] at h
    simp only [Bool.not_true, Bool.false_eq_true, if_false] at h
    cases hl : loads (pyStrip c.text) with
    | none => rw [hl] at h; simp at h
    | some parsed =>
      rw [hl] at h
      simp only [Option.some.injEq] at h
      cases hh : c.heading with
      | some hd =>
        rw [hh] at h
        rw [← h]
        exact cleanName_good hd
      | none =>
        rw [hh] at h
        rw [← h]
        exact fallbackBase_good saved
  · simp only [Bool.not_eq_true] at hs
    rw [hs] at h
    simp at h

theorem runCands_good {saved : Nat} {cs : List Cand} {e : Entry}
    (h : e ∈ (runCands saved cs).2) : goodName e.base := by
  induction cs generalizing saved with
  | nil => simp [runCands] at h
  | cons c cs ih =>
    rw [runCands] at h
    cases hp : processCand saved c with
    | mk s1 oe =>
      rw [hp] at h
      cases oe with
      | none => exact ih h
      | some e0 =>
        simp only at h
        rcases List.mem_cons.mp h with h | h
        · subst h
          exact processCand_good (by rw [hp])
        · exact ih h

/-- Claim C6: every output file base name — whether derived from a heading via
normalization or from the `example-<n>` fallback — consists only of lower-case
letters, digits and hyphens, with no leading or trailing hyphen; and the
normalization performed by the source is exactly the spec's description of it
(lower-case, collapse each maximal run outside `[a-z0-9-]` to one hyphen,
strip leading/trailing hyphens). -/
theorem claim_C6 :
    (∀ s : List Char, cleanName s = cleanNameSpec s) ∧
      (∀ (root : HNode) (e : Entry), e ∈ (extract root).2 → goodName e.base) :=
  ⟨cleanName_eq_spec, fun _ _ h => runCands_good h⟩

theorem claim_C6_witness : goodName (lc "get-activity") :=
  claim_C6.2 docC6 ⟨some (lc "Get Activity"), lc "get-activity", lc "\x7b\x7d"⟩
    (by decide)

/-! Round-trip of the serialized forms through the parser: numbers. -/

theorem takeWhile_append_all {α : Type} {p : α → Bool} {x rest : List α}
    (h : ∀ c ∈ x, p c = true) : (x ++ rest).takeWhile p = x ++ rest.takeWhile p := by
  induction x with
  | nil => rfl
  | cons a t ih =>
    rw [List.cons_append, List.takeWhile_cons_of_pos (h a (by simp)), List.cons_append,
      ih (fun c hc => h c (by simp [hc]))]

theorem dropWhile_append_all {α : Type} {p : α → Bool} {x rest : List α}
    (h : ∀ c ∈ x, p c = true) : (x ++ rest).dropWhile p = rest.dropWhile p := by
  induction x with
  | nil => rfl
  | cons a t ih =>
    rw [List.cons_append, List.dropWhile_cons_of_pos (h a (by simp)),
      ih (fun c hc => h c (by simp [hc]))]

theorem takeWhile_not_head {α : Type} {p : α → Bool} : ∀ {rest : List α},
    (∀ c t, rest = c :: t → p c = false) → rest.takeWhile p = []
  | [], _ => rfl
  | c :: t, h => List.takeWhile_cons_of_neg (by simp [h c t rfl])

theorem dropWhile_not_head {α : Type} {p : α → Bool} : ∀ {rest : List α},
    (∀ c t, rest = c :: t → p c = false) → rest.dropWhile p = rest
  | [], _ => rfl
  | c :: t, h => List.dropWhile_cons_of_neg (by simp [h c t rfl])

theorem numSep_head {rest : List Char} (h : numSep rest = true) :
    ∀ c t, rest = c :: t → isDigitCh c = false := by
  intro c t hr
  subst hr
  simp only [numSep, Bool.and_eq_true, Bool.not_eq_true'] at h
  exact h.1.1.1

theorem parseUNum_natChars (n : Nat) {rest : List Char} (hs : numSep rest = true) :
    parseUNum (natChars n ++ rest) = some (n, rest) := by
  have hdig : ∀ c ∈ natChars n, isDigitCh c = true := by
    intro c hc
    have := natChars_mem hc
    simp only [isDigitCh, Bool.and_eq_true, decide_eq_true_eq]
    omega
  have htake : (natChars n ++ rest).takeWhile isDigitCh = natChars n ++ [] := by
    rw [takeWhile_append_all hdig, takeWhile_not_head (numSep_head hs)]
  have hdrop : (natChars n ++ rest).dropWhile isDigitCh = rest := by
    rw [dropWhile_append_all hdig, dropWhile_not_head (numSep_head hs)]
  have hdec0 : decodeDigits (natChars n) = n := decodeDigits_natChars n
  rw [parseUNum.eq_def, htake, hdrop, List.append_nil]
  cases hnc : natChars n with
  | nil => exact absurd hnc (natChars_ne_nil n)
  | cons d0 ds =>
    rw [hnc] at hdec0
    have hcond : (d0.toNat == 48 && !ds.isEmpty) = false := by
      by_cases hn : n = 0
      · subst hn
        have h0 : natChars 0 = ['0'] := rfl
        rw [h0] at hnc
        injection hnc with h1 h2
        rw [← h2]
        simp
      · have hne48 := natChars_head hn hnc
        rw [Bool.and_eq_false_iff]
        left
        exact beq_eq_false_iff_ne.mpr hne48
    simp only [hcond, Bool.false_eq_true, if_false]
    cases hr : rest with
    | nil => simp [hdec0]
    | cons c t =>
      subst hr
      simp only [numSep, Bool.and_eq_true, Bool.not_eq_true'] at hs
      have h46 : (c.toNat == 46) = false := by
        have := hs.1.1.2
        simpa using this
      have h101 : (c.toNat == 101) = false := by
        have := hs.1.2
        simpa using this
      have h69 : (c.toNat == 69) = false := by
        have := hs.2
        simpa using this
      simp [h46, h101, h69, hdec0]

theorem parseNumber_intChars (i : Int) {rest : List Char} (hs : numSep rest = true) :
    parseNumber (intChars i ++ rest) = some (.int i, rest) := by
  cases i with
  | ofNat n =>
    rw [show intChars (Int.ofNat n) = natChars n from rfl]
    have hp := parseUNum_natChars n hs
    cases hnc : natChars n with
    | nil => exact absurd hnc (natChars_ne_nil n)
    | cons d0 ds =>
      have h48 : 48 ≤ d0.toNat ∧ d0.toNat ≤ 57 := natChars_mem (by rw [hnc]; simp)
      rw [hnc] at hp
      rw [List.cons_append]
      have hstep : parseNumber (d0 :: (ds ++ rest)) =
          if (d0.toNat == 45) = true then
            (parseUNum (ds ++ rest)).map (fun p => (PyJson.int (-(p.1 : Int)), p.2))
          else (parseUNum (d0 :: (ds ++ rest))).map
            (fun p => (PyJson.int (p.1 : Int), p.2)) := rfl
      rw [hstep, if_neg (by simp; omega), ← List.cons_append, hp]
      simp
  | negSucc n =>
    rw [show intChars (Int.negSucc n) = '-' :: natChars (n + 1) from rfl, List.cons_append]
    rw [show parseNumber ('-' :: (natChars (n + 1) ++ rest)) =
      (parseUNum (natChars (n + 1) ++ rest)).map
        (fun p => (PyJson.int (-(p.1 : Int)), p.2)) from rfl]
    rw [parseUNum_natChars (n + 1) hs]
    simp only [Option.map_some', Option.some.injEq, Prod.mk.injEq, PyJson.int.injEq,
      Int.negSucc_eq]
    refine ⟨?_, trivial⟩
    push_cast
    ring_nf

/-! Round-trip of the serialized forms through the parser: strings. -/

theorem char_valid_toNat (c : Char) : Nat.isValidChar c.toNat := c.valid

theorem mkChar_self (c : Char) : mkChar c.toNat = c :=
  charToNat_inj (charOfNat_toNat (char_valid_toNat c))

theorem hexChar_toNat_lt10 {d : Nat} (h : d < 10) : (hexChar d).toNat = 48 + d := by
  unfold hexChar
  rw [if_pos h]
  exact charOfNat_toNat_ascii (by omega)

theorem hexChar_toNat_ge10 {d : Nat} (h10 : 10 ≤ d) (h : d < 16) :
    (hexChar d).toNat = 87 + d := by
  unfold hexChar
  rw [if_neg (by omega)]
  exact charOfNat_toNat_ascii (by omega)

theorem isHexCh_hexChar {d : Nat} (h : d < 16) : isHexCh (hexChar d) = true := by
  unfold isHexCh
  by_cases h10 : d < 10
  · rw [hexChar_toNat_lt10 h10]
    simp only [Bool.or_eq_true, Bool.and_eq_true, decide_eq_true_eq]
    omega
  · rw [hexChar_toNat_ge10 (by omega) h]
    simp only [Bool.or_eq_true, Bool.and_eq_true, decide_eq_true_eq]
    omega

theorem hexVal_hexChar {d : Nat} (h : d < 16) : hexVal (hexChar d) = d := by
  unfold hexVal
  by_cases h10 : d < 10
  · rw [hexChar_toNat_lt10 h10]
    rw [if_pos (by simp only [Bool.and_eq_true, decide_eq_true_eq]; omega)]
    omega
  · rw [hexChar_toNat_ge10 (by omega) h]
    rw [if_neg (by simp only [Bool.and_eq_true, decide_eq_true_eq, not_and, not_le]; omega)]
    rw [if_pos (by simp only [Bool.and_eq_true, decide_eq_true_eq]; omega)]
    omega

theorem hexQuad {m : Nat} (h : m < 65536) :
    ((hexVal (hexChar (m / 4096 % 16)) * 16 + hexVal (hexChar (m / 256 % 16))) * 16 +
        hexVal (hexChar (m / 16 % 16))) * 16 + hexVal (hexChar (m % 16)) = m := by
  rw [hexVal_hexChar (Nat.mod_lt _ (by omega)), hexVal_hexChar (Nat.mod_lt _ (by omega)),
    hexVal_hexChar (Nat.mod_lt _ (by omega)), hexVal_hexChar (Nat.mod_lt _ (by omega))]
  omega


theorem readHex4_toHex4 {v : Nat} (h : v < 65536) (T : List Char) :
    readHex4 (toHex4 v ++ T) = some (v, T) := by
  rw [show toHex4 v ++ T = hexChar (v / 4096 % 16) :: hexChar (v / 256 % 16) ::
    hexChar (v / 16 % 16) :: hexChar (v % 16) :: T from rfl]
  rw [readHex4.eq_def]
  simp only [isHexCh_hexChar (Nat.mod_lt _ (by omega)), Bool.and_self, if_true]
  rw [hexQuad h]

theorem valid_char_ranges {v : Nat} (hv : Nat.isValidChar v) :
    v < 55296 ∨ (57343 < v ∧ v < 1114112) := by
  rcases hv with h | ⟨h1, h2⟩
  · left; exact h
  · right; exact ⟨h1, h2⟩

theorem decodeUEsc_bmp {v : Nat} (hv : Nat.isValidChar v) (hlt : v < 65536)
    (T : List Char) : decodeUEsc (toHex4 v ++ T) = some (mkChar v, T) := by
  have hr := valid_char_ranges hv
  have hq1 : (decide (55296 ≤ v) && decide (v ≤ 56319)) = false := by
    simp only [Bool.and_eq_false_iff, decide_eq_false_iff_not, not_le]
    omega
  have hq2 : (decide (56320 ≤ v) && decide (v ≤ 57343)) = false := by
    simp only [Bool.and_eq_false_iff, decide_eq_false_iff_not, not_le]
    omega
  unfold decodeUEsc
  rw [readHex4_toHex4 hlt]
  simp only [hq1, hq2, Bool.false_eq_true, if_false]

theorem decodeUEsc_astral {v : Nat} (h1 : 65536 ≤ v) (h2 : v < 1114112) (T : List Char) :
    decodeUEsc (toHex4 (55296 + (v - 65536) / 1024) ++
      ('\\' :: 'u' :: (toHex4 (56320 + (v - 65536) % 1024) ++ T))) = some (mkChar v, T) := by
  have hhi : 55296 + (v - 65536) / 1024 < 65536 := by omega
  have hlo : 56320 + (v - 65536) % 1024 < 65536 := by omega
  have hq1 : (decide (55296 ≤ 55296 + (v - 65536) / 1024) &&
      decide (55296 + (v - 65536) / 1024 ≤ 56319)) = true := by
    simp only [Bool.and_eq_true, decide_eq_true_eq]
    omega
  have hq2 : (decide (56320 ≤ 56320 + (v - 65536) % 1024) &&
      decide (56320 + (v - 65536) % 1024 ≤ 57343)) = true := by
    simp only [Bool.and_eq_true, decide_eq_true_eq]
    omega
  rw [decodeUEsc.eq_def]
  rw [readHex4_toHex4 hhi]
  simp only [hq1, if_true]
  simp only [show (('\\').toNat == 92 && ('u').toNat == 117) = true from rfl, if_true]
  rw [readHex4_toHex4 hlo]
  simp only [hq2, if_true]
  rw [show 65536 + ((55296 + (v - 65536) / 1024) - 55296) * 1024 +
    ((56320 + (v - 65536) % 1024) - 56320) = v by omega]

theorem escString_cons (c : Char) (cs : List Char) :
    escString (c :: cs) = escChar c ++ escString cs := rfl

theorem parseStrBody_u (f : Nat) (X : List Char) :
    parseStrBody (f+1) ('\\' :: 'u' :: X) =
      (match decodeUEsc X with
        | none => none
        | some (ch, r3) => (parseStrBody f r3).map (fun p => (ch :: p.1, p.2))) := rfl

theorem parseStrBody_esc (s : List Char) : ∀ (fuel : Nat) (rest : List Char),
    s.length < fuel →
    parseStrBody fuel (escString s ++ '"' :: rest) = some (s, rest) := by
  induction s with
  | nil =>
    intro fuel rest hf
    cases fuel with
    | zero => omega
    | succ f => rfl
  | cons c cs ih =>
    intro fuel rest hf
    cases fuel with
    | zero => omega
    | succ f =>
      have hlen : cs.length < f := by simp only [List.length_cons] at hf; omega
      rw [escString_cons, List.append_assoc]
      by_cases h34 : c.toNat = 34
      · have hc : c = '"' := charToNat_inj (by rw [h34]; rfl)
        subst hc
        rw [show parseStrBody (f+1) (escChar '"' ++ (escString cs ++ '"' :: rest)) =
          (parseStrBody f (escString cs ++ '"' :: rest)).map
            (fun p => ('"' :: p.1, p.2)) from rfl]
        rw [ih f rest hlen]
        rfl
      by_cases h92 : c.toNat = 92
      · have hc : c = '\\' := charToNat_inj (by rw [h92]; rfl)
        subst hc
        rw [show parseStrBody (f+1) (escChar '\\' ++ (escString cs ++ '"' :: rest)) =
          (parseStrBody f (escString cs ++ '"' :: rest)).map
            (fun p => ('\\' :: p.1, p.2)) from rfl]
        rw [ih f rest hlen]
        rfl
      by_cases h8 : c.toNat = 8
      · have hc : c = '\x08' := charToNat_inj (by rw [h8]; rfl)
        subst hc
        rw [show parseStrBody (f+1) (escChar '\x08' ++ (escString cs ++ '"' :: rest)) =
          (parseStrBody f (escString cs ++ '"' :: rest)).map
            (fun p => ('\x08' :: p.1, p.2)) from rfl]
        rw [ih f rest hlen]
        rfl
      by_cases h12 : c.toNat = 12
      · have hc : c = '\x0c' := charToNat_inj (by rw [h12]; rfl)
        subst hc
        rw [show parseStrBody (f+1) (escChar '\x0c' ++ (escString cs ++ '"' :: rest)) =
          (parseStrBody f (escString cs ++ '"' :: rest)).map
            (fun p => ('\x0c' :: p.1, p.2)) from rfl]
        rw [ih f rest hlen]
        rfl
      by_cases h10 : c.toNat = 10
      · have hc : c = '\n' := charToNat_inj (by rw [h10]; rfl)
        subst hc
        rw [show parseStrBody (f+1) (escChar '\n' ++ (escString cs ++ '"' :: rest)) =
          (parseStrBody f (escString cs ++ '"' :: rest)).map
            (fun p => ('\n' :: p.1, p.2)) from rfl]
        rw [ih f rest hlen]
        rfl
      by_cases h13 : c.toNat = 13
      · have hc : c = '\r' := charToNat_inj (by rw [h13]; rfl)
        subst hc
        rw [show parseStrBody (f+1) (escChar '\r' ++ (escString cs ++ '"' :: rest)) =
          (parseStrBody f (escString cs ++ '"' :: rest)).map
            (fun p => ('\r' :: p.1, p.2)) from rfl]
        rw [ih f rest hlen]
        rfl
      by_cases h9 : c.toNat = 9
      · have hc : c = '\t' := charToNat_inj (by rw [h9]; rfl)
        subst hc
        rw [show parseStrBody (f+1) (escChar '\t' ++ (escString cs ++ '"' :: rest)) =
          (parseStrBody f (escString cs ++ '"' :: rest)).map
            (fun p => ('\t' :: p.1, p.2)) from rfl]
        rw [ih f rest hlen]
        rfl
      by_cases hpr : 32 ≤ c.toNat ∧ c.toNat ≤ 126
      · have he : escChar c = [c] := by
          unfold escChar
          rw [if_neg (by simp [h34]), if_neg (by simp [h92]), if_neg (by simp [h8]),
            if_neg (by simp [h12]), if_neg (by simp [h10]), if_neg (by simp [h13]),
            if_neg (by simp [h9]),
            if_pos (by simp only [Bool.and_eq_true, decide_eq_true_eq]; exact hpr)]
        rw [he, List.singleton_append]
        have e34 : (c.toNat == 34) = false := beq_eq_false_iff_ne.mpr h34
        have e92 : (c.toNat == 92) = false := beq_eq_false_iff_ne.mpr h92
        have hstep : parseStrBody (f+1) (c :: (escString cs ++ '"' :: rest)) =
            (parseStrBody f (escString cs ++ '"' :: rest)).map
              (fun p => (c :: p.1, p.2)) := by
          rw [parseStrBody.eq_def]
          simp only [e34, e92, Bool.false_eq_true, if_false]
          rw [if_neg (by omega)]
        rw [hstep, ih f rest hlen]
        rfl
      by_cases hbmp : c.toNat < 65536
      · have he : escChar c = '\\' :: 'u' :: toHex4 c.toNat := by
          unfold escChar
          rw [if_neg (by simp [h34]), if_neg (by simp [h92]), if_neg (by simp [h8]),
            if_neg (by simp [h12]), if_neg (by simp [h10]), if_neg (by simp [h13]),
            if_neg (by simp [h9]),
            if_neg (by simp only [Bool.and_eq_true, decide_eq_true_eq]; exact hpr),
            if_pos hbmp]
        rw [he]
        rw [show ('\\' :: 'u' :: toHex4 c.toNat) ++ (escString cs ++ '"' :: rest) =
          '\\' :: 'u' :: (toHex4 c.toNat ++ (escString cs ++ '"' :: rest)) from rfl]
        rw [parseStrBody_u]
        rw [decodeUEsc_bmp (char_valid_toNat c) hbmp]
        simp only [mkChar_self]
        rw [ih f rest hlen]
        rfl
      · have hlt2 := charToNat_lt c
        have hge : 65536 ≤ c.toNat := by omega
        have he : escChar c = ('\\' :: 'u' :: toHex4 (55296 + (c.toNat - 65536) / 1024)) ++
            ('\\' :: 'u' :: toHex4 (56320 + (c.toNat - 65536) % 1024)) := by
          unfold escChar
          rw [if_neg (by simp [h34]), if_neg (by simp [h92]), if_neg (by simp [h8]),
            if_neg (by simp [h12]), if_neg (by simp [h10]), if_neg (by simp [h13]),
            if_neg (by simp [h9]),
            if_neg (by simp only [Bool.and_eq_true, decide_eq_true_eq]; exact hpr),
            if_neg hbmp]
        rw [he]
        rw [show (('\\' :: 'u' :: toHex4 (55296 + (c.toNat - 65536) / 1024)) ++
            ('\\' :: 'u' :: toHex4 (56320 + (c.toNat - 65536) % 1024))) ++
            (escString cs ++ '"' :: rest) =
          '\\' :: 'u' :: (toHex4 (55296 + (c.toNat - 65536) / 1024) ++
            ('\\' :: 'u' :: (toHex4 (56320 + (c.toNat - 65536) % 1024) ++
              (escString cs ++ '"' :: rest)))) by simp]
        rw [parseStrBody_u]
        rw [decodeUEsc_astral hge hlt2]
        simp only [mkChar_self]
        rw [ih f rest hlen]
        rfl

theorem escChar_len (c : Char) : 1 ≤ (escChar c).length := by
  unfold escChar
  split_ifs <;> simp [toHex4]

theorem escString_len (s : List Char) : s.length ≤ (escString s).length := by
  induction s with
  | nil => simp [escString]
  | cons c cs ih =>
    rw [escString_cons, List.length_append, List.length_cons]
    have := escChar_len c
    omega

theorem parseVal_str (fuel : Nat) (s rest : List Char) :
    parseVal (fuel+1) (dumpString s ++ rest) = some (.str s, rest) := by
  have hshape : dumpString s ++ rest = '"' :: (escString s ++ '"' :: rest) := by
    unfold dumpString
    simp
  rw [hshape]
  rw [show parseVal (fuel+1) ('"' :: (escString s ++ '"' :: rest)) =
    (parseStrBody ((escString s ++ '"' :: rest).length + 1)
      (escString s ++ '"' :: rest)).map (fun p => (PyJson.str p.1, p.2)) from rfl]
  rw [parseStrBody_esc s _ rest (by
    rw [List.length_append, List.length_cons]
    have := escString_len s
    omega)]
  rfl

/-! Whitespace and head-character facts about the serializer output. -/

theorem skipWS_indent (d : Nat) (t : List Char) : skipWS (indentSp d ++ t) = skipWS t := by
  unfold skipWS
  apply dropWhile_append_all
  intro c hc
  rw [List.eq_of_mem_replicate hc]
  rfl

theorem skipWS_nl_indent (d : Nat) (t : List Char) :
    skipWS ('\n' :: (indentSp d ++ t)) = skipWS t := by
  rw [show skipWS ('\n' :: (indentSp d ++ t)) = skipWS (indentSp d ++ t) from by
    unfold skipWS; rw [List.dropWhile_cons_of_pos (by rfl)]]
  exact skipWS_indent d t

theorem dumpsV_head (d : Nat) (v : PyJson) :
    ∃ c t, dumpsV d v = c :: t ∧ jsonSpace c = false ∧ c.toNat ≠ 93 ∧ c.toNat ≠ 125 := by
  cases v with
  | null =>
    refine ⟨'n', _, rfl, ?_, ?_, ?_⟩ <;> decide
  | bool b =>
    cases b
    · refine ⟨'f', _, rfl, ?_, ?_, ?_⟩ <;> decide
    · refine ⟨'t', _, rfl, ?_, ?_, ?_⟩ <;> decide
  | int i =>
    cases i with
    | ofNat n =>
      rcases hnc : natChars n with _ | ⟨c, t⟩
      · exact absurd hnc (natChars_ne_nil n)
      · have hd := natChars_mem (hnc ▸ List.mem_cons_self c t)
        refine ⟨c, t, hnc, ?_, by omega, by omega⟩
        simp only [jsonSpace, Bool.or_eq_false_iff, beq_eq_false_iff_ne, ne_eq]
        omega
    | negSucc n =>
      refine ⟨'-', _, rfl, ?_, ?_, ?_⟩ <;> decide
  | str s =>
    refine ⟨'"', _, rfl, ?_, ?_, ?_⟩ <;> decide
  | arr xs =>
    cases xs
    · refine ⟨'[', _, rfl, ?_, ?_, ?_⟩ <;> decide
    · refine ⟨'[', _, rfl, ?_, ?_, ?_⟩ <;> decide
  | obj o =>
    cases o
    · refine ⟨'\x7b', _, rfl, ?_, ?_, ?_⟩ <;> decide
    · refine ⟨'\x7b', _, rfl, ?_, ?_, ?_⟩ <;> decide

theorem skipWS_dumps (d : Nat) (v : PyJson) (rest : List Char) :
    skipWS (dumpsV d v ++ rest) = dumpsV d v ++ rest := by
  obtain ⟨c, t, hct, hws, -, -⟩ := dumpsV_head d v
  rw [hct, List.cons_append]
  unfold skipWS
  rw [List.dropWhile_cons_of_neg (by simp [hws])]

theorem expectCh_cons_ne {n : Nat} {c : Char} {t : List Char} (h : c.toNat ≠ n) :
    expectCh n (c :: t) = none := by
  simp [expectCh, h]

theorem expectCh_cons_eq {n : Nat} {c : Char} {t : List Char} (h : c.toNat = n) :
    expectCh n (c :: t) = some t := by
  simp [expectCh, h]

/-! Step lemmas for the value parser on known head characters, and shape
lemmas for the serializer output. -/

theorem parseVal_bra (f : Nat) (R : List Char) :
    parseVal (f+1) ('[' :: R) =
      (match expectCh 93 (skipWS R) with
        | some r2 => some (.arr .nil, r2)
        | none => (parseItems f (skipWS R)).map (fun p => (PyJson.arr p.1, p.2))) := rfl

theorem parseVal_brc (f : Nat) (R : List Char) :
    parseVal (f+1) ('\x7b' :: R) =
      (match expectCh 125 (skipWS R) with
        | some r2 => some (.obj .nil, r2)
        | none => (parseMembers f (skipWS R)).map (fun p => (PyJson.obj p.1, p.2))) := rfl

theorem parseItems_step (f : Nat) (l : List Char) :
    parseItems (f+1) l =
      (match parseVal f l with
        | none => none
        | some (v, r) =>
          match expectCh 93 (skipWS r) with
          | some r2 => some (.cons v .nil, r2)
          | none =>
            match expectCh 44 (skipWS r) with
            | some r2 =>
              match parseItems f (skipWS r2) with
              | none => none
              | some (vs, r3) => some (.cons v vs, r3)
            | none => none) := rfl

theorem parseMembers_step (f : Nat) (r : List Char) :
    parseMembers (f+1) ('"' :: r) =
      (match parseStrBody (r.length + 1) r with
        | none => none
        | some (k, r1) =>
          match expectCh 58 (skipWS r1) with
          | none => none
          | some r2 =>
            match parseVal f (skipWS r2) with
            | none => none
            | some (v, r3) =>
              match expectCh 125 (skipWS r3) with
              | some r4 => some (.cons k v .nil, r4)
              | none =>
                match expectCh 44 (skipWS r3) with
                | some r4 =>
                  match parseMembers f (skipWS r4) with
                  | none => none
                  | some (o, r5) => some (jobjCombine k v o, r5)
                | none => none) := rfl

theorem parseVal_num {f : Nat} {c : Char} {r : List Char}
    (hd : c.toNat = 45 ∨ (48 ≤ c.toNat ∧ c.toNat ≤ 57)) :
    parseVal (f+1) (c :: r) = parseNumber (c :: r) := by
  have e123 : (c.toNat == 123) = false := beq_eq_false_iff_ne.mpr (by omega)
  have e91 : (c.toNat == 91) = false := beq_eq_false_iff_ne.mpr (by omega)
  have e34 : (c.toNat == 34) = false := beq_eq_false_iff_ne.mpr (by omega)
  have e116 : (c.toNat == 116) = false := beq_eq_false_iff_ne.mpr (by omega)
  have e102 : (c.toNat == 102) = false := beq_eq_false_iff_ne.mpr (by omega)
  have e110 : (c.toNat == 110) = false := beq_eq_false_iff_ne.mpr (by omega)
  have hnum : (c.toNat == 45 || isDigitCh c) = true := by
    simp only [isDigitCh, Bool.or_eq_true, beq_iff_eq, Bool.and_eq_true, decide_eq_true_eq]
    omega
  rw [parseVal.eq_def]
  simp only [e123, e91, e34, e116, e102, e110, Bool.false_eq_true, if_false, hnum, if_true]

theorem skipWS_dumpString (k X : List Char) :
    skipWS (dumpString k ++ X) = dumpString k ++ X := rfl

theorem dumpArr_cons_close (d : Nat) (y : PyJson) (ys : JArr) (close : List Char) :
    dumpArr d (JArr.cons y ys) ++ close =
      indentSp d ++ (dumpsV d y ++ arrTail d ys close) := by
  cases ys with
  | nil => simp [dumpArr, arrTail]
  | cons z zs => simp [dumpArr, arrTail]

theorem dumpObj_cons_close (d : Nat) (k : List Char) (v : PyJson) (r : JObj)
    (close : List Char) :
    dumpObj d (JObj.cons k v r) ++ close =
      indentSp d ++ (dumpString k ++ ':' :: ' ' :: (dumpsV d v ++ objTail d r close)) := by
  cases r with
  | nil => simp [dumpObj, objTail]
  | cons k2 v2 r2 => simp [dumpObj, objTail]

theorem numSep_comma (X : List Char) : numSep (',' :: X) = true := rfl

theorem numSep_of_skip {close : List Char} {c : Char} {t : List Char}
    (h : skipWS close = c :: t) (hc : c.toNat = 93 ∨ c.toNat = 125) :
    numSep close = true := by
  cases close with
  | nil => simp [skipWS] at h
  | cons a X =>
    by_cases ha : jsonSpace a
    · simp only [jsonSpace, Bool.or_eq_true, beq_iff_eq] at ha
      simp only [numSep, isDigitCh, Bool.and_eq_true, Bool.not_eq_true', bne_iff_ne, ne_eq,
        Bool.and_eq_false_iff, decide_eq_false_iff_not]
      refine ⟨⟨⟨?_, ?_⟩, ?_⟩, ?_⟩ <;> omega
    · unfold skipWS at h
      rw [List.dropWhile_cons_of_neg (by simp [ha])] at h
      injection h with h1 h2
      subst h1
      simp only [numSep, isDigitCh, Bool.and_eq_true, Bool.not_eq_true', bne_iff_ne, ne_eq,
        Bool.and_eq_false_iff, decide_eq_false_iff_not]
      refine ⟨⟨⟨?_, ?_⟩, ?_⟩, ?_⟩ <;> omega

theorem jobjCombine_not_found {k : List Char} {v : PyJson} {o : JObj}
    (h : jobjFind k o = none) : jobjCombine k v o = JObj.cons k v o := by
  unfold jobjCombine
  rw [h]

theorem expectCh_93_br (t : List Char) : expectCh 93 (']' :: t) = some t := rfl

theorem expectCh_125_br (t : List Char) : expectCh 125 ('\x7d' :: t) = some t := rfl

theorem expectCh_44_comma (t : List Char) : expectCh 44 (',' :: t) = some t := rfl

theorem expectCh_58_colon (t : List Char) : expectCh 58 (':' :: t) = some t := rfl

theorem expectCh_93_comma (t : List Char) : expectCh 93 (',' :: t) = none := rfl

theorem expectCh_125_comma (t : List Char) : expectCh 125 (',' :: t) = none := rfl

theorem skipWS_comma (t : List Char) : skipWS (',' :: t) = ',' :: t := rfl

theorem skipWS_colon (t : List Char) : skipWS (':' :: t) = ':' :: t := rfl

theorem parseItems_dump {N : Nat}
    (ihP : ∀ (w : PyJson), sizeOf w ≤ N → ∀ (d fuel : Nat) (rest : List Char),
      wfJ w = true → jneed w ≤ fuel → numSep rest = true →
      parseVal fuel (dumpsV d w ++ rest) = some (w, rest)) :
    ∀ (f : Nat) (xs : JArr) (x : PyJson) (d : Nat) (close rest : List Char),
      sizeOf x ≤ N → sizeOf xs ≤ N → wfJ x = true → wfA xs = true →
      1 + jneed x + jneedA xs ≤ f →
      skipWS close = ']' :: rest →
      parseItems f (dumpsV d x ++ arrTail d xs close) = some (JArr.cons x xs, rest) := by
  intro f
  induction f with
  | zero =>
    intro xs x d close rest hszx hszxs hwfx hwfxs hf hclose
    omega
  | succ f' ihf =>
    intro xs x d close rest hszx hszxs hwfx hwfxs hf hclose
    cases xs with
    | nil =>
      rw [parseItems_step]
      rw [show arrTail d .nil close = close from rfl]
      rw [ihP x hszx d f' close hwfx (by simp only [jneedA] at hf; omega)
        (numSep_of_skip hclose (Or.inl rfl))]
      simp only [hclose, expectCh_93_br]
    | cons y ys =>
      have hsz : sizeOf y ≤ N ∧ sizeOf ys ≤ N := by
        simp only [JArr.cons.sizeOf_spec] at hszxs
        omega
      have hwf : wfJ y = true ∧ wfA ys = true := by
        simp only [wfA, Bool.and_eq_true] at hwfxs
        exact hwfxs
      rw [parseItems_step]
      rw [show arrTail d (.cons y ys) close =
        ',' :: '\n' :: (dumpArr d (.cons y ys) ++ close) from rfl]
      rw [ihP x hszx d f' _ hwfx
        (by simp only [jneedA] at hf; omega) (numSep_comma _)]
      have hskip2 : skipWS ('\n' :: (dumpArr d (.cons y ys) ++ close)) =
          dumpsV d y ++ arrTail d ys close := by
        rw [dumpArr_cons_close, skipWS_nl_indent, skipWS_dumps]
      have hrec := ihf ys y d close rest hsz.1 hsz.2 hwf.1 hwf.2
        (by simp only [jneedA] at hf; omega) hclose
      simp only [skipWS_comma, expectCh_93_comma, expectCh_44_comma, hskip2, hrec]

theorem find_none_of_hasKey {k : List Char} {o : JObj} (h : jobjHasKey k o = false) :
    jobjFind k o = none := by
  unfold jobjHasKey at h
  cases hf : jobjFind k o with
  | none => rfl
  | some v => rw [hf] at h; simp at h

theorem parseMembers_dump {N : Nat}
    (ihP : ∀ (w : PyJson), sizeOf w ≤ N → ∀ (d fuel : Nat) (rest : List Char),
      wfJ w = true → jneed w ≤ fuel → numSep rest = true →
      parseVal fuel (dumpsV d w ++ rest) = some (w, rest)) :
    ∀ (f : Nat) (r : JObj) (k : List Char) (v : PyJson) (d : Nat) (close rest : List Char),
      sizeOf v ≤ N → sizeOf r ≤ N → wfJ v = true → wfO r = true →
      jobjFind k r = none →
      1 + jneed v + jneedO r ≤ f →
      skipWS close = '\x7d' :: rest →
      parseMembers f (dumpString k ++ ':' :: ' ' :: (dumpsV d v ++ objTail d r close)) =
        some (JObj.cons k v r, rest) := by
  intro f
  induction f with
  | zero =>
    intro r k v d close rest hszv hszr hwfv hwfr hfind hf hclose
    omega
  | succ f' ihf =>
    intro r k v d close rest hszv hszr hwfv hwfr hfind hf hclose
    have hshape : dumpString k ++ ':' :: ' ' :: (dumpsV d v ++ objTail d r close) =
        '"' :: (escString k ++ '"' :: (':' :: ' ' :: (dumpsV d v ++ objTail d r close))) := by
      unfold dumpString
      simp
    rw [hshape, parseMembers_step]
    rw [parseStrBody_esc k _ _ (by
      rw [List.length_append, List.length_cons]
      have := escString_len k
      omega)]
    have hsp : skipWS (' ' :: (dumpsV d v ++ objTail d r close)) =
        dumpsV d v ++ objTail d r close := by
      rw [show skipWS (' ' :: (dumpsV d v ++ objTail d r close)) =
        skipWS (dumpsV d v ++ objTail d r close) from rfl]
      exact skipWS_dumps d v _
    cases r with
    | nil =>
      rw [show objTail d .nil close = close from rfl] at hsp ⊢
      have hval := ihP v hszv d f' close hwfv (by simp only [jneedO] at hf; omega)
        (numSep_of_skip hclose (Or.inr rfl))
      simp only [skipWS_colon, expectCh_58_colon, hsp, hval, hclose, expectCh_125_br]
    | cons k2 v2 r2 =>
      have hsz : sizeOf v2 ≤ N ∧ sizeOf r2 ≤ N := by
        simp only [JObj.cons.sizeOf_spec] at hszr
        omega
      have hwf2 : jobjHasKey k2 r2 = false ∧ wfJ v2 = true ∧ wfO r2 = true := by
        simp only [wfO, Bool.and_eq_true, Bool.not_eq_true'] at hwfr
        exact ⟨hwfr.1.1, hwfr.1.2, hwfr.2⟩
      rw [show objTail d (.cons k2 v2 r2) close =
        ',' :: '\n' :: (dumpObj d (.cons k2 v2 r2) ++ close) from rfl] at hsp ⊢
      have hval := ihP v hszv d f'
        (',' :: '\n' :: (dumpObj d (.cons k2 v2 r2) ++ close)) hwfv
        (by simp only [jneedO] at hf; omega) (numSep_comma _)
      have hskip2 : skipWS ('\n' :: (dumpObj d (.cons k2 v2 r2) ++ close)) =
          dumpString k2 ++ ':' :: ' ' :: (dumpsV d v2 ++ objTail d r2 close) := by
        rw [dumpObj_cons_close, skipWS_nl_indent, skipWS_dumpString]
      have hrec := ihf r2 k2 v2 d close rest hsz.1 hsz.2 hwf2.2.1 hwf2.2.2
        (find_none_of_hasKey hwf2.1) (by simp only [jneedO] at hf; omega) hclose
      simp only [skipWS_colon, expectCh_58_colon, hsp, hval, skipWS_comma,
        expectCh_125_comma, expectCh_44_comma, hskip2, hrec,
        jobjCombine_not_found hfind]

theorem parse_dumps_bounded : ∀ (N : Nat) (v : PyJson), sizeOf v ≤ N →
    ∀ (d fuel : Nat) (rest : List Char), wfJ v = true → jneed v ≤ fuel →
    numSep rest = true →
    parseVal fuel (dumpsV d v ++ rest) = some (v, rest) := by
  intro N
  induction N with
  | zero =>
    intro v hv
    exact absurd hv (by cases v <;> simp)
  | succ N ihN =>
    intro v hv d fuel rest hwf hfuel hsep
    cases v with
    | null =>
      cases fuel with
      | zero => simp [jneed] at hfuel
      | succ f => rfl
    | bool b =>
      cases fuel with
      | zero => simp [jneed] at hfuel
      | succ f => cases b <;> rfl
    | int i =>
      cases fuel with
      | zero => simp [jneed] at hfuel
      | succ f =>
        cases i with
        | ofNat n =>
          have hp := parseNumber_intChars (Int.ofNat n) hsep
          rcases hnc : natChars n with _ | ⟨c0, t0⟩
          · exact absurd hnc (natChars_ne_nil n)
          · have hdg := natChars_mem (hnc ▸ List.mem_cons_self c0 t0)
            rw [show dumpsV d (.int (Int.ofNat n)) = natChars n from rfl]
            rw [show intChars (Int.ofNat n) = natChars n from rfl] at hp
            rw [hnc] at hp ⊢
            rw [List.cons_append, parseVal_num (Or.inr hdg), ← List.cons_append, hp]
        | negSucc n =>
          have hp := parseNumber_intChars (Int.negSucc n) hsep
          rw [show intChars (Int.negSucc n) ++ rest =
            '-' :: (natChars (n + 1) ++ rest) from by simp [intChars]] at hp
          rw [show dumpsV d (.int (Int.negSucc n)) ++ rest =
            '-' :: (natChars (n + 1) ++ rest) from by simp [dumpsV, intChars]]
          rw [parseVal_num (Or.inl (by rfl)), hp]
    | str s =>
      cases fuel with
      | zero => simp [jneed] at hfuel
      | succ f => exact parseVal_str f s rest
    | arr xs =>
      cases xs with
      | nil =>
        cases fuel with
        | zero => simp [jneed] at hfuel
        | succ f => rfl
      | cons x xs' =>
        cases fuel with
        | zero => simp [jneed, jneedA] at hfuel
        | succ f =>
          have hsz : sizeOf x ≤ N ∧ sizeOf xs' ≤ N := by
            simp only [PyJson.arr.sizeOf_spec, JArr.cons.sizeOf_spec] at hv
            omega
          have hwf2 : wfJ x = true ∧ wfA xs' = true := by
            simp only [wfJ, wfA, Bool.and_eq_true] at hwf
            exact hwf
          have hclose : skipWS ('\n' :: (indentSp d ++ (']' :: rest))) = ']' :: rest := by
            rw [skipWS_nl_indent]
            rfl
          have hshape : dumpsV d (.arr (.cons x xs')) ++ rest =
              '[' :: ('\n' :: (indentSp (d+1) ++ (dumpsV (d+1) x ++
                arrTail (d+1) xs' ('\n' :: (indentSp d ++ (']' :: rest)))))) := by
            rw [show dumpsV d (.arr (.cons x xs')) = '[' :: '\n' ::
              dumpArr (d + 1) (JArr.cons x xs') ++ '\n' :: indentSp d ++ [']'] from rfl]
            simp only [List.cons_append, List.append_assoc, List.singleton_append]
            rw [← dumpArr_cons_close]
            simp
          rw [hshape, parseVal_bra]
          have hskip : skipWS ('\n' :: (indentSp (d+1) ++ (dumpsV (d+1) x ++
              arrTail (d+1) xs' ('\n' :: (indentSp d ++ (']' :: rest)))))) =
              dumpsV (d+1) x ++
                arrTail (d+1) xs' ('\n' :: (indentSp d ++ (']' :: rest))) := by
            rw [skipWS_nl_indent, skipWS_dumps]
          obtain ⟨c0, t0, hct, hws0, h93, h125⟩ := dumpsV_head (d+1) x
          have hexp : expectCh 93 (dumpsV (d+1) x ++
              arrTail (d+1) xs' ('\n' :: (indentSp d ++ (']' :: rest)))) = none := by
            rw [hct, List.cons_append]
            exact expectCh_cons_ne h93
          have hitems := parseItems_dump ihN f xs' x (d+1)
            ('\n' :: (indentSp d ++ (']' :: rest))) rest hsz.1 hsz.2 hwf2.1 hwf2.2
            (by simp only [jneed, jneedA] at hfuel ⊢; omega) hclose
          simp only [hskip, hexp, hitems, Option.map_some']
    | obj o =>
      cases o with
      | nil =>
        cases fuel with
        | zero => simp [jneed] at hfuel
        | succ f => rfl
      | cons k v' r =>
        cases fuel with
        | zero => simp [jneed, jneedO] at hfuel
        | succ f =>
          have hsz : sizeOf v' ≤ N ∧ sizeOf r ≤ N := by
            simp only [PyJson.obj.sizeOf_spec, JObj.cons.sizeOf_spec] at hv
            omega
          have hwf2 : jobjHasKey k r = false ∧ wfJ v' = true ∧ wfO r = true := by
            simp only [wfJ, wfO, Bool.and_eq_true, Bool.not_eq_true'] at hwf
            exact ⟨hwf.1.1, hwf.1.2, hwf.2⟩
          have hclose : skipWS ('\n' :: (indentSp d ++ ('\x7d' :: rest))) =
              '\x7d' :: rest := by
            rw [skipWS_nl_indent]
            rfl
          have hshape : dumpsV d (.obj (.cons k v' r)) ++ rest =
              '\x7b' :: ('\n' :: (indentSp (d+1) ++ (dumpString k ++ ':' :: ' ' ::
                (dumpsV (d+1) v' ++
                  objTail (d+1) r ('\n' :: (indentSp d ++ ('\x7d' :: rest))))))) := by
            rw [show dumpsV d (.obj (.cons k v' r)) = '\x7b' :: '\n' ::
              dumpObj (d + 1) (JObj.cons k v' r) ++ '\n' :: indentSp d ++ ['\x7d'] from rfl]
            simp only [List.cons_append, List.append_assoc, List.singleton_append]
            rw [← dumpObj_cons_close]
            simp
          rw [hshape, parseVal_brc]
          have hskip : skipWS ('\n' :: (indentSp (d+1) ++ (dumpString k ++ ':' :: ' ' ::
              (dumpsV (d+1) v' ++
                objTail (d+1) r ('\n' :: (indentSp d ++ ('\x7d' :: rest))))))) =
              dumpString k ++ ':' :: ' ' :: (dumpsV (d+1) v' ++
                objTail (d+1) r ('\n' :: (indentSp d ++ ('\x7d' :: rest)))) := by
            rw [skipWS_nl_indent, skipWS_dumpString]
          have hexp : expectCh 125 (dumpString k ++ ':' :: ' ' :: (dumpsV (d+1) v' ++
              objTail (d+1) r ('\n' :: (indentSp d ++ ('\x7d' :: rest))))) = none := by
            rw [show dumpString k ++ ':' :: ' ' :: (dumpsV (d+1) v' ++
              objTail (d+1) r ('\n' :: (indentSp d ++ ('\x7d' :: rest)))) =
              '"' :: (escString k ++ '"' :: (':' :: ' ' :: (dumpsV (d+1) v' ++
                objTail (d+1) r ('\n' :: (indentSp d ++ ('\x7d' :: rest)))))) from by
              unfold dumpString; simp]
            exact expectCh_cons_ne (by decide)
          have hmembers := parseMembers_dump ihN f r k v' (d+1)
            ('\n' :: (indentSp d ++ ('\x7d' :: rest))) rest hsz.1 hsz.2 hwf2.2.1 hwf2.2.2
            (find_none_of_hasKey hwf2.1) (by simp only [jneed, jneedO] at hfuel ⊢; omega)
            hclose
          simp only [hskip, hexp, hmembers, Option.map_some']

theorem jneed_le_len_all : ∀ N : Nat,
    (∀ v : PyJson, sizeOf v ≤ N → ∀ d, jneed v ≤ (dumpsV d v).length) ∧
    (∀ xs : JArr, sizeOf xs ≤ N → ∀ d, 1 ≤ d → jneedA xs ≤ (dumpArr d xs).length) ∧
    (∀ o : JObj, sizeOf o ≤ N → ∀ d, jneedO o ≤ (dumpObj d o).length) := by
  intro N
  induction N with
  | zero =>
    refine ⟨fun v hv => absurd hv (by cases v <;> simp),
      fun xs hxs => absurd hxs (by cases xs <;> simp),
      fun o ho => absurd ho (by cases o <;> simp)⟩
  | succ N ihN =>
    obtain ⟨ihV, ihA, ihO⟩ := ihN
    refine ⟨?_, ?_, ?_⟩
    · intro v hv d
      cases v with
      | null => simp [jneed, dumpsV]
      | bool b => cases b <;> simp [jneed, dumpsV]
      | int i =>
        cases i with
        | ofNat n =>
          have h0 : natChars n ≠ [] := natChars_ne_nil n
          have : 0 < (natChars n).length := List.length_pos.mpr h0
          simp only [jneed, dumpsV, intChars]
          omega
        | negSucc n =>
          simp only [jneed, dumpsV, intChars, List.length_cons]
          omega
      | str s =>
        simp only [jneed, dumpsV, dumpString, List.length_cons, List.length_append,
          List.length_singleton]
        omega
      | arr xs =>
        cases xs with
        | nil => simp [jneed, jneedA, dumpsV]
        | cons x xs' =>
          have hsz : sizeOf (JArr.cons x xs') ≤ N := by
            simp only [PyJson.arr.sizeOf_spec] at hv
            omega
          have := ihA (JArr.cons x xs') hsz (d + 1) (by omega)
          simp only [jneed, dumpsV, List.length_cons, List.length_append,
            List.length_singleton, indentSp, List.length_replicate]
          simp only [jneedA] at this ⊢
          omega
      | obj o =>
        cases o with
        | nil => simp [jneed, jneedO, dumpsV]
        | cons k v' r =>
          have hsz : sizeOf (JObj.cons k v' r) ≤ N := by
            simp only [PyJson.obj.sizeOf_spec] at hv
            omega
          have := ihO (JObj.cons k v' r) hsz (d + 1)
          simp only [jneed, dumpsV, List.length_cons, List.length_append,
            List.length_singleton, indentSp, List.length_replicate]
          simp only [jneedO] at this ⊢
          omega
    · intro xs hxs d hd
      cases xs with
      | nil => simp [jneedA, dumpArr]
      | cons x xs' =>
        have hszx : sizeOf x ≤ N ∧ sizeOf xs' ≤ N := by
          simp only [JArr.cons.sizeOf_spec] at hxs
          omega
        have hx := ihV x hszx.1 d
        cases xs' with
        | nil =>
          simp only [jneedA, dumpArr, List.length_append, indentSp, List.length_replicate]
          omega
        | cons y ys =>
          have htl := ihA (JArr.cons y ys) hszx.2 d hd
          simp only [jneedA] at htl ⊢
          simp only [dumpArr, List.length_append, List.length_cons, indentSp,
            List.length_replicate]
          omega
    · intro o ho d
      cases o with
      | nil => simp [jneedO, dumpObj]
      | cons k v' r =>
        have hszr : sizeOf v' ≤ N ∧ sizeOf r ≤ N := by
          simp only [JObj.cons.sizeOf_spec] at ho
          omega
        have hv' := ihV v' hszr.1 d
        cases r with
        | nil =>
          simp only [jneedO, dumpObj, List.length_append, List.length_cons, indentSp,
            List.length_replicate, dumpString, List.length_singleton]
          omega
        | cons k2 v2 r2 =>
          have htl := ihO (JObj.cons k2 v2 r2) hszr.2 d
          simp only [jneedO] at htl ⊢
          simp only [dumpObj, List.length_append, List.length_cons, indentSp,
            List.length_replicate, dumpString, List.length_singleton]
          omega

theorem loads_dumps {v : PyJson} (hwf : wfJ v = true) : loads (dumpsTop v) = some v := by
  unfold loads dumpsTop
  have h1 : skipWS (dumpsV 0 v) = dumpsV 0 v := by
    have := skipWS_dumps 0 v []
    simpa using this
  rw [h1]
  have hb := (jneed_le_len_all (sizeOf v)).1 v le_rfl 0
  have hp := parse_dumps_bounded (sizeOf v) v le_rfl 0 ((dumpsV 0 v).length + 1) [] hwf
    (by omega) (by rfl)
  rw [List.append_nil] at hp
  rw [hp]
  rfl

theorem parseVal_cons (f : Nat) (c : Char) (cs : List Char) :
    parseVal (f+1) (c :: cs) =
      (if c.toNat == 123 then
        match expectCh 125 (skipWS cs) with
        | some r2 => some (.obj .nil, r2)
        | none => (parseMembers f (skipWS cs)).map (fun p => (PyJson.obj p.1, p.2))
      else if c.toNat == 91 then
        match expectCh 93 (skipWS cs) with
        | some r2 => some (.arr .nil, r2)
        | none => (parseItems f (skipWS cs)).map (fun p => (PyJson.arr p.1, p.2))
      else if c.toNat == 34 then
        (parseStrBody (cs.length + 1) cs).map (fun p => (PyJson.str p.1, p.2))
      else if c.toNat == 116 then parseTrue cs
      else if c.toNat == 102 then parseFalse cs
      else if c.toNat == 110 then parseNull cs
      else if c.toNat == 45 || isDigitCh c then parseNumber (c :: cs)
      else none) := rfl

theorem hasKey_erase_of_not (k k2 : List Char) :
    ∀ o : JObj, jobjHasKey k2 o = false → jobjHasKey k2 (jobjErase k o) = false
  | .nil, _ => by simp [jobjErase, jobjHasKey, jobjFind]
  | .cons k3 v r, h => by
    simp only [jobjHasKey, jobjFind] at h
    by_cases hk : k3 = k
    · simp only [jobjErase, if_pos hk]
      split at h
      · simp at h
      · simpa [jobjHasKey] using h
    · simp only [jobjErase, if_neg hk, jobjHasKey, jobjFind]
      split at h
      · simp at h
      · next hne =>
        rw [if_neg hne]
        exact hasKey_erase_of_not k k2 r (by simpa [jobjHasKey] using h)

theorem hasKey_erase_self (k : List Char) :
    ∀ o : JObj, wfO o = true → jobjHasKey k (jobjErase k o) = false
  | .nil, _ => by simp [jobjErase, jobjHasKey, jobjFind]
  | .cons k2 v r, h => by
    simp only [wfO, Bool.and_eq_true, Bool.not_eq_true'] at h
    by_cases hk : k2 = k
    · simp only [jobjErase, if_pos hk]
      rw [← hk]
      exact h.1.1
    · simp only [jobjErase, if_neg hk, jobjHasKey, jobjFind, if_neg hk]
      exact hasKey_erase_self k r h.2

theorem wfO_erase (k : List Char) :
    ∀ o : JObj, wfO o = true → wfO (jobjErase k o) = true
  | .nil, _ => by simp [jobjErase, wfO]
  | .cons k2 v r, h => by
    simp only [wfO, Bool.and_eq_true, Bool.not_eq_true'] at h
    by_cases hk : k2 = k
    · simp only [jobjErase, if_pos hk]
      exact h.2
    · simp only [jobjErase, if_neg hk, wfO, Bool.and_eq_true, Bool.not_eq_true']
      exact ⟨⟨hasKey_erase_of_not k k2 r h.1.1, h.1.2⟩, wfO_erase k r h.2⟩

theorem find_wf (k : List Char) :
    ∀ o : JObj, wfO o = true → ∀ v, jobjFind k o = some v → wfJ v = true
  | .nil, _, v, hf => by simp [jobjFind] at hf
  | .cons k2 v2 r, h, v, hf => by
    simp only [wfO, Bool.and_eq_true] at h
    simp only [jobjFind] at hf
    split at hf
    · injection hf with hv
      rw [← hv]
      exact h.1.2
    · exact find_wf k r h.2 v hf

theorem wfO_combine {k : List Char} {v : PyJson} {o : JObj}
    (hv : wfJ v = true) (ho : wfO o = true) : wfO (jobjCombine k v o) = true := by
  unfold jobjCombine
  cases hf : jobjFind k o with
  | none =>
    simp only [wfO, Bool.and_eq_true, Bool.not_eq_true']
    exact ⟨⟨by simp [jobjHasKey, hf], hv⟩, ho⟩
  | some v2 =>
    simp only [wfO, Bool.and_eq_true, Bool.not_eq_true']
    exact ⟨⟨hasKey_erase_self k o ho, find_wf k o ho v2 hf⟩, wfO_erase k o ho⟩

theorem parseTrue_shape {l r : List Char} {v : PyJson} (h : parseTrue l = some (v, r)) :
    v = PyJson.bool true := by
  unfold parseTrue at h
  split at h
  · simp only [Option.some.injEq, Prod.mk.injEq] at h
    exact h.1.symm
  · exact absurd h (by simp)

theorem parseFalse_shape {l r : List Char} {v : PyJson} (h : parseFalse l = some (v, r)) :
    v = PyJson.bool false := by
  unfold parseFalse at h
  split at h
  · simp only [Option.some.injEq, Prod.mk.injEq] at h
    exact h.1.symm
  · exact absurd h (by simp)

theorem parseNull_shape {l r : List Char} {v : PyJson} (h : parseNull l = some (v, r)) :
    v = PyJson.null := by
  unfold parseNull at h
  split at h
  · simp only [Option.some.injEq, Prod.mk.injEq] at h
    exact h.1.symm
  · exact absurd h (by simp)

theorem parseNumber_shape {l r : List Char} {v : PyJson} (h : parseNumber l = some (v, r)) :
    ∃ i, v = PyJson.int i := by
  cases l with
  | nil => simp [parseNumber] at h
  | cons c t =>
    simp only [parseNumber] at h
    split_ifs at h
    · rw [Option.map_eq_some'] at h
      obtain ⟨p, _, hp⟩ := h
      simp only [Prod.mk.injEq] at hp
      exact ⟨-(p.1 : Int), hp.1.symm⟩
    · rw [Option.map_eq_some'] at h
      obtain ⟨p, _, hp⟩ := h
      simp only [Prod.mk.injEq] at hp
      exact ⟨(p.1 : Int), hp.1.symm⟩

theorem parse_wf_all : ∀ fuel : Nat,
    (∀ l v r, parseVal fuel l = some (v, r) → wfJ v = true) ∧
    (∀ l vs r, parseItems fuel l = some (vs, r) → wfA vs = true) ∧
    (∀ l o r, parseMembers fuel l = some (o, r) → wfO o = true) := by
  intro fuel
  induction fuel with
  | zero =>
    refine ⟨?_, ?_, ?_⟩ <;> intro l x r h <;>
      simp [parseVal, parseItems, parseMembers] at h
  | succ f ih =>
    obtain ⟨ihV, ihI, ihM⟩ := ih
    refine ⟨?_, ?_, ?_⟩
    · intro l v r h
      cases l with
      | nil => simp [parseVal] at h
      | cons c cs =>
        rw [parseVal_cons] at h
        split_ifs at h with h123 h91 h34 h116 h102 h110 hnum
        · split at h
          · simp only [Option.some.injEq, Prod.mk.injEq] at h
            rw [← h.1]
            rfl
          · rw [Option.map_eq_some'] at h
            obtain ⟨p, hp1, hp2⟩ := h
            simp only [Prod.mk.injEq] at hp2
            rw [← hp2.1]
            simpa [wfJ] using ihM _ p.1 p.2 hp1
        · split at h
          · simp only [Option.some.injEq, Prod.mk.injEq] at h
            rw [← h.1]
            rfl
          · rw [Option.map_eq_some'] at h
            obtain ⟨p, hp1, hp2⟩ := h
            simp only [Prod.mk.injEq] at hp2
            rw [← hp2.1]
            simpa [wfJ] using ihI _ p.1 p.2 hp1
        · rw [Option.map_eq_some'] at h
          obtain ⟨p, _, hp2⟩ := h
          simp only [Prod.mk.injEq] at hp2
          rw [← hp2.1]
          rfl
        · rw [parseTrue_shape h]
          rfl
        · rw [parseFalse_shape h]
          rfl
        · rw [parseNull_shape h]
          rfl
        · obtain ⟨i, hi⟩ := parseNumber_shape h
          rw [hi]
          rfl
    · intro l vs r h
      rw [parseItems_step] at h
      split at h
      · exact absurd h (by simp)
      · next v0 r0 hv0 =>
        have hwv : wfJ v0 = true := ihV _ v0 r0 hv0
        split at h
        · simp only [Option.some.injEq, Prod.mk.injEq] at h
          rw [← h.1]
          simp [wfA, hwv]
        · split at h
          · split at h
            · exact absurd h (by simp)
            · next vs' r3 hvs' =>
              simp only [Option.some.injEq, Prod.mk.injEq] at h
              rw [← h.1]
              simp [wfA, hwv, ihI _ vs' r3 hvs']
          · exact absurd h (by simp)
    · intro l o r h
      cases l with
      | nil => simp [parseMembers] at h
      | cons c cs =>
        by_cases hc : c = '"'
        · subst hc
          rw [parseMembers_step] at h
          split at h
          · exact absurd h (by simp)
          · next k r1 hk =>
            split at h
            · exact absurd h (by simp)
            · next r2 hr2 =>
              split at h
              · exact absurd h (by simp)
              · next v0 r3 hv0 =>
                have hwv : wfJ v0 = true := ihV _ v0 r3 hv0
                split at h
                · simp only [Option.some.injEq, Prod.mk.injEq] at h
                  rw [← h.1]
                  simp [wfO, jobjHasKey, jobjFind, hwv]
                · split at h
                  · split at h
                    · exact absurd h (by simp)
                    · next o' r5 ho' =>
                      simp only [Option.some.injEq, Prod.mk.injEq] at h
                      rw [← h.1]
                      exact wfO_combine hwv (ihM _ o' r5 ho')
                  · exact absurd h (by simp)
        · rw [parseMembers.eq_def] at h
          simp only at h
          rw [if_neg (by simpa [Char.toNat] using fun hq => hc (charToNat_inj (by simpa using hq)))] at h
          exact absurd h (by simp)

theorem loads_wf {s : List Char} {v : PyJson} (h : loads s = some v) : wfJ v = true := by
  unfold loads at h
  split at h
  · next p rest hp =>
    split at h
    · injection h with hv
      rw [← hv]
      exact (parse_wf_all (s.length + 1)).1 _ p rest hp
    · exact absurd h (by simp)
  · exact absurd h (by simp)

/-- C4: for every candidate block that passes the pre-check and whose stripped
text parses as JSON, exactly one save occurs for that block (the saved counter
increments by one and one entry is produced), and the written content — the
2-space-indented serialization of the parsed value — parses back to a JSON
value equal to the original parsed value. -/
theorem claim_C4 (saved : Nat) (c : Cand) (v : PyJson)
    (hs : startsJson (pyStrip c.text) = true)
    (hp : loads (pyStrip c.text) = some v) :
    ∃ e : Entry, processCand saved c = (saved + 1, some e) ∧
      e.content = dumpsTop v ∧ loads e.content = some v := by
  refine ⟨⟨c.heading,
    match c.heading with
    | some h => cleanName h
    | none => fallbackBase saved, dumpsTop v⟩, ?_, rfl, loads_dumps (loads_wf hp)⟩
  unfold processCand
  rw [hs, hp]
  simp

theorem claim_C4_witness :
    startsJson (pyStrip (lc "[1]")) = true ∧
    loads (pyStrip (lc "[1]")) = some (PyJson.arr (.cons (.int 1) .nil)) ∧
    ∃ e : Entry, processCand 0 ⟨lc "[1]", none⟩ = (1, some e) ∧
      e.content = dumpsTop (PyJson.arr (.cons (.int 1) .nil)) ∧
      loads e.content = some (PyJson.arr (.cons (.int 1) .nil)) :=
  ⟨rfl, rfl, claim_C4 0 ⟨lc "[1]", none⟩ (PyJson.arr (.cons (.int 1) .nil)) rfl rfl⟩

/-! Claim C1: fallback numbering of headless saves. -/

theorem processCand_skip {saved : Nat} {c : Cand} {s1 : Nat}
    (h : processCand saved c = (s1, none)) : s1 = saved := by
  unfold processCand at h
  split_ifs at h with hs
  · exact (Prod.mk.injEq .. ▸ h).1.symm |>.symm ▸ rfl
  · split at h
    · simp only [Prod.mk.injEq] at h
      exact h.1.symm
    · simp at h

theorem processCand_save {saved : Nat} {c : Cand} {s1 : Nat} {e : Entry}
    (h : processCand saved c = (s1, some e)) :
    s1 = saved + 1 ∧ e.heading = c.heading ∧
      e.base = (match c.heading with
        | some hd => cleanName hd
        | none => fallbackBase saved) := by
  unfold processCand at h
  split_ifs at h with hs
  · simp at h
  · split at h
    · simp at h
    · simp only [Prod.mk.injEq, Option.some.injEq] at h
      refine ⟨h.1.symm, ?_, ?_⟩
      · rw [← h.2]
      · rw [← h.2]

theorem runCands_heading : ∀ (cs : List Cand) (saved : Nat) (e : Entry),
    e ∈ (runCands saved cs).2 → ∃ c ∈ cs, e.heading = c.heading := by
  intro cs
  induction cs with
  | nil => intro saved e h; simp [runCands] at h
  | cons c cs ih =>
    intro saved e h
    rw [runCands] at h
    cases hp : processCand saved c with
    | mk s1 oe =>
      rw [hp] at h
      cases oe with
      | none =>
        obtain ⟨c', hc', he⟩ := ih s1 e h
        exact ⟨c', List.mem_cons_of_mem _ hc', he⟩
      | some e0 =>
        simp only at h
        rcases List.mem_cons.mp h with h | h
        · subst h
          exact ⟨c, List.mem_cons_self _ _, (processCand_save hp).2.1⟩
        · obtain ⟨c', hc', he⟩ := ih s1 e h
          exact ⟨c', List.mem_cons_of_mem _ hc', he⟩

theorem runCands_nth_base : ∀ (cs : List Cand) (saved k : Nat) (e : Entry),
    ((runCands saved cs).2)[k]? = some e → e.heading = none →
      e.base = fallbackBase (saved + k) := by
  intro cs
  induction cs with
  | nil => intro saved k e h _; simp [runCands] at h
  | cons c cs ih =>
    intro saved k e h hn
    rw [runCands] at h
    cases hp : processCand saved c with
    | mk s1 oe =>
      rw [hp] at h
      cases oe with
      | none =>
        rw [processCand_skip hp] at h
        exact ih saved k e h hn
      | some e0 =>
        simp only at h
        obtain ⟨hsv, _, hbase⟩ := processCand_save hp
        cases k with
        | zero =>
          simp only [List.getElem?_cons_zero, Option.some.injEq] at h
          subst h
          have hc : c.heading = none := (processCand_save hp).2.1.symm.trans hn
          rw [hbase, hc]
          simp
        | succ k =>
          simp only [List.getElem?_cons_succ] at h
          have := ih s1 k e h hn
          rw [hsv] at this
          rw [this]
          have harith : saved + 1 + k = saved + (k + 1) := by omega
          rw [harith]

theorem runCands_mono : ∀ (cs : List Cand) (saved : Nat),
    List.Pairwise (fun c1 c2 => c1.heading = none ∨ c2.heading ≠ none) cs →
    List.Pairwise (fun (e1 e2 : Entry) => e1.heading = none ∨ e2.heading ≠ none)
      (runCands saved cs).2 := by
  intro cs
  induction cs with
  | nil => intro saved _; simp [runCands]
  | cons c cs ih =>
    intro saved hP
    rw [List.pairwise_cons] at hP
    rw [runCands]
    cases hp : processCand saved c with
    | mk s1 oe =>
      cases oe with
      | none => exact ih s1 hP.2
      | some e0 =>
        simp only
        rw [List.pairwise_cons]
        refine ⟨?_, ih s1 hP.2⟩
        intro e he
        obtain ⟨c', hc', hec⟩ := runCands_heading cs s1 e he
        rw [(processCand_save hp).2.1, hec]
        exact hP.1 c' hc'

mutual

theorem scanN_inv : ∀ (last : Option (List Char)) (n : HNode),
    (last.isSome = true → (scanN last n).1.isSome = true ∧
      ∀ c ∈ (scanN last n).2, c.heading.isSome = true) ∧
    ((scanN last n).1 = none → ∀ c ∈ (scanN last n).2, c.heading = none) ∧
    List.Pairwise (fun c1 c2 => c1.heading = none ∨ c2.heading ≠ none) (scanN last n).2
  | last, .txt s => by simp [scanN]
  | last, .elem tag classes ch => by
    obtain ⟨ih1, ih2, ih3⟩ :=
      scanNs_inv (if isHeadingTag tag then some (getTexts ch) else last) ch
    simp only [scanN]
    have hsc : ∀ c ∈ (if matchesSel tag classes
        then [(⟨getTexts ch, last⟩ : Cand)] else []), c.heading = last := by
      split
      · intro c hc
        rw [List.mem_singleton.mp hc]
      · intro c hc
        simp at hc
    have hscP : List.Pairwise (fun c1 c2 => c1.heading = none ∨ c2.heading ≠ none)
        (if matchesSel tag classes then [(⟨getTexts ch, last⟩ : Cand)] else []) := by
      split <;> simp
    refine ⟨?_, ?_, ?_⟩
    · intro hls
      have hL1 : (if isHeadingTag tag then some (getTexts ch) else last).isSome = true := by
        split
        · rfl
        · exact hls
      obtain ⟨ha, hb⟩ := ih1 hL1
      refine ⟨ha, ?_⟩
      intro c hc
      rcases List.mem_append.mp hc with hc | hc
      · rw [hsc c hc]
        exact hls
      · exact hb c hc
    · intro hnone
      have hlast : last = none := by
        by_contra hne
        have hls : last.isSome = true := Option.ne_none_iff_isSome.mp hne
        have hL1 : (if isHeadingTag tag then some (getTexts ch) else last).isSome = true := by
          split
          · rfl
          · exact hls
        have := (ih1 hL1).1
        rw [hnone] at this
        simp at this
      intro c hc
      rcases List.mem_append.mp hc with hc | hc
      · rw [hsc c hc]
        exact hlast
      · exact ih2 hnone c hc
    · rw [List.pairwise_append]
      refine ⟨hscP, ih3, ?_⟩
      intro c1 hc1 c2 hc2
      rw [hsc c1 hc1]
      cases hl : last with
      | none => exact Or.inl rfl
      | some x =>
        right
        have hL1 : (if isHeadingTag tag then some (getTexts ch) else last).isSome = true := by
          split
          · rfl
          · rw [hl]
            rfl
        have := (ih1 hL1).2 c2 hc2
        exact Option.ne_none_iff_isSome.mpr this

theorem scanNs_inv : ∀ (last : Option (List Char)) (ns : HNodes),
    (last.isSome = true → (scanNs last ns).1.isSome = true ∧
      ∀ c ∈ (scanNs last ns).2, c.heading.isSome = true) ∧
    ((scanNs last ns).1 = none → ∀ c ∈ (scanNs last ns).2, c.heading = none) ∧
    List.Pairwise (fun c1 c2 => c1.heading = none ∨ c2.heading ≠ none) (scanNs last ns).2
  | last, .nil => by simp [scanNs]
  | last, .cons n ns => by
    obtain ⟨ihn1, ihn2, ihn3⟩ := scanN_inv last n
    obtain ⟨ihs1, ihs2, ihs3⟩ := scanNs_inv (scanN last n).1 ns
    simp only [scanNs]
    refine ⟨?_, ?_, ?_⟩
    · intro hls
      obtain ⟨ha, hb⟩ := ihn1 hls
      obtain ⟨hc, hd⟩ := ihs1 ha
      refine ⟨hc, ?_⟩
      intro c hc2
      rcases List.mem_append.mp hc2 with hc2 | hc2
      · exact hb c hc2
      · exact hd c hc2
    · intro hnone
      have hmid : (scanN last n).1 = none := by
        by_contra hne
        have := (ihs1 (Option.ne_none_iff_isSome.mp hne)).1
        rw [hnone] at this
        simp at this
      intro c hc
      rcases List.mem_append.mp hc with hc | hc
      · exact ihn2 hmid c hc
      · exact ihs2 hnone c hc
    · rw [List.pairwise_append]
      refine ⟨ihn3, ihs3, ?_⟩
      intro c1 hc1 c2 hc2
      cases h1 : c1.heading with
      | none => exact Or.inl rfl
      | some x =>
        right
        have hmid : (scanN last n).1.isSome = true := by
          by_contra hne
          have hmid0 : (scanN last n).1 = none := by
            cases hx : (scanN last n).1
            · rfl
            · rw [hx] at hne
              simp at hne
          have := ihn2 hmid0 c1 hc1
          rw [h1] at this
          simp at this
        have := (ihs1 hmid).2 c2 hc2
        exact Option.ne_none_iff_isSome.mpr this

end

theorem candidates_mono (root : HNode) :
    List.Pairwise (fun c1 c2 => c1.heading = none ∨ c2.heading ≠ none)
      (candidates root) :=
  (scanN_inv none root).2.2

theorem filter_eq_takeWhile_mono {α : Type} {p : α → Bool} :
    ∀ {l : List α}, List.Pairwise (fun a b => p a = true ∨ p b = false) l →
      l.filter p = l.takeWhile p
  | [], _ => rfl
  | a :: l, h => by
    rw [List.pairwise_cons] at h
    cases ha : p a with
    | true =>
      rw [List.filter_cons_of_pos ha, List.takeWhile_cons_of_pos ha]
      exact congrArg _ (filter_eq_takeWhile_mono h.2)
    | false =>
      rw [List.filter_cons_of_neg (by simp [ha]), List.takeWhile_cons_of_neg (by simp [ha])]
      refine List.filter_eq_nil_iff.mpr ?_
      intro b hb
      have := (h.1 b hb).resolve_left (by simp [ha])
      simp [this]

theorem mem_of_getElem?_some {α : Type} : ∀ {l : List α} {k : Nat} {e : α},
    l[k]? = some e → e ∈ l
  | a :: t, 0, e, h => by simp_all
  | a :: t, k+1, e, h => by
    simp only [List.getElem?_cons_succ] at h
    exact List.mem_cons_of_mem _ (mem_of_getElem?_some h)
  | [], k, e, h => by simp at h

theorem getElem?_of_prefix {α : Type} {l1 l2 : List α} {k : Nat} {e : α}
    (hp : l1 <+: l2) (h : l1[k]? = some e) : l2[k]? = some e := by
  obtain ⟨t, rfl⟩ := hp
  have hk : k < l1.length := by
    by_contra hk
    rw [List.getElem?_eq_none (le_of_not_lt hk)] at h
    simp at h
  rw [List.getElem?_append, if_pos hk]
  exact h

/-- C1: in any run, the k-th entry of the save log among those with no
preceding h2/h3 heading (1-indexed: position `k` 0-indexed) has base name
`example-<k+1>` and file name `example-<k+1>.json` in the output directory —
the fallback ordinal counts successful saves only, and headless saves always
precede headed ones in document order, so the two indexings agree. -/
theorem claim_C1 (root : HNode) (k : Nat) (e : Entry)
    (h : (((extract root).2).filter (fun e2 => e2.heading.isNone))[k]? = some e) :
    e.base = fallbackBase k ∧
      e.fname = outDir ++ '/' :: (lc "example-" ++ natChars (k + 1)) ++ lc ".json" := by
  have hmono := runCands_mono (candidates root) 0 (candidates_mono root)
  have hmono2 : List.Pairwise
      (fun (e1 e2 : Entry) => e1.heading.isNone = true ∨ e2.heading.isNone = false)
      (runCands 0 (candidates root)).2 := by
    refine List.Pairwise.imp ?_ hmono
    intro a b hab
    rcases hab with h1 | h2
    · exact Or.inl (by simp [Option.isNone_iff_eq_none, h1])
    · refine Or.inr ?_
      cases hb : b.heading with
      | none => exact absurd hb h2
      | some x => rfl
  have hft : ((extract root).2).filter (fun e2 => e2.heading.isNone) =
      ((extract root).2).takeWhile (fun e2 => e2.heading.isNone) :=
    filter_eq_takeWhile_mono hmono2
  rw [hft] at h
  have hlg : ((extract root).2)[k]? = some e :=
    getElem?_of_prefix (List.takeWhile_prefix _) h
  have hnone : e.heading = none := by
    have hmem := mem_of_getElem?_some h
    have := List.mem_takeWhile_imp hmem
    simpa [Option.isNone_iff_eq_none] using this
  have hbase := runCands_nth_base (candidates root) 0 k e hlg hnone
  rw [Nat.zero_add] at hbase
  exact ⟨hbase, by rw [Entry.fname, hbase]; rfl⟩

theorem claim_C1_witness :
    ((((extract docC1).2).filter (fun e2 => e2.heading.isNone))[1]? =
      some ⟨none, lc "example-2", lc "\x7b\n  \"a\": 1\n\x7d"⟩) ∧
    (Entry.base ⟨none, lc "example-2", lc "\x7b\n  \"a\": 1\n\x7d"⟩ = fallbackBase 1 ∧
      Entry.fname ⟨none, lc "example-2", lc "\x7b\n  \"a\": 1\n\x7d"⟩ =
        outDir ++ '/' :: (lc "example-" ++ natChars 2) ++ lc ".json") :=
  ⟨by decide, claim_C1 docC1 1 ⟨none, lc "example-2", lc "\x7b\n  \"a\": 1\n\x7d"⟩ (by decide)⟩

/-- C7: on a document with the heading `Get Activity` directly before a code
block containing the object with keys `id` and `name`, extraction saves
exactly one file, named `get-activity.json` in the output directory, whose
exact content is the 2-space-indented serialization of the object. -/
theorem claim_C7 :
    extract docC7 = (1, [⟨some (lc "Get Activity"), lc "get-activity",
        lc "\x7b\n  \"id\": 1,\n  \"name\": \"ride\"\n\x7d"⟩]) ∧
      Entry.fname ⟨some (lc "Get Activity"), lc "get-activity",
        lc "\x7b\n  \"id\": 1,\n  \"name\": \"ride\"\n\x7d"⟩ =
        lc "src/test/resources/strava/get-activity.json" :=
  ⟨by decide, by decide⟩

/-- C8: when the nearest preceding heading of a successfully parsed block
exists but its text normalizes to the empty string, the derived base name is
empty and the file name is exactly `.json` in the output directory; the
fallback ordinal name is not used. -/
theorem claim_C8 (saved : Nat) (c : Cand) (hd : List Char) (v : PyJson)
    (hh : c.heading = some hd) (hcn : cleanName hd = [])
    (hs : startsJson (pyStrip c.text) = true)
    (hp : loads (pyStrip c.text) = some v) :
    ∃ e : Entry, processCand saved c = (saved + 1, some e) ∧ e.base = [] ∧
      e.fname = outDir ++ lc "/.json" := by
  refine ⟨⟨c.heading, match c.heading with
    | some h0 => cleanName h0
    | none => fallbackBase saved, dumpsTop v⟩, ?_, ?_, ?_⟩
  · unfold processCand
    rw [hs, hp]
    simp
  · simp only [hh, hcn]
  · simp only [Entry.fname, hh, hcn]
    rfl

theorem claim_C8_witness :
    (⟨lc "[1]", some (lc "!!!")⟩ : Cand).heading = some (lc "!!!") ∧
    cleanName (lc "!!!") = [] ∧
    startsJson (pyStrip (lc "[1]")) = true ∧
    loads (pyStrip (lc "[1]")) = some (PyJson.arr (.cons (.int 1) .nil)) ∧
    ∃ e : Entry, processCand 0 ⟨lc "[1]", some (lc "!!!")⟩ = (1, some e) ∧
      e.base = [] ∧ e.fname = outDir ++ lc "/.json" :=
  ⟨rfl, by decide, rfl, rfl,
    claim_C8 0 ⟨lc "[1]", some (lc "!!!")⟩ (lc "!!!")
      (PyJson.arr (.cons (.int 1) .nil)) rfl (by decide) rfl rfl⟩

/-- C9 counterexample: the source raises only for HTTP statuses 400-599
(`raise_for_status`), so a non-2xx status outside that range — here 304 — does
not abort the run: the fetch succeeds and extraction proceeds, contradicting
the claim that every non-2xx status terminates the run before extraction. -/
theorem claim_C9_counterexample :
    ¬(200 ≤ 304 ∧ 304 < 300) ∧
      mainRun (.ok ⟨304, docC1⟩) = .ok (extract docC1) :=
  ⟨by omega, rfl⟩

/-- C9 (amended): the run terminates with a fatal, propagated error before any
extraction work exactly when the fetch fails with a network error or returns
an HTTP status in 400-599; an error result carries no write log.  Statuses
outside 400-599 — including non-2xx ones — proceed to extraction. -/
theorem claim_C9 :
    mainRun (.error ()) = .error .network ∧
    (∀ r : HttpResponse, 400 ≤ r.status → r.status < 600 →
      mainRun (.ok r) = .error (.httpStatus r.status)) ∧
    (∀ r : HttpResponse, ¬(400 ≤ r.status ∧ r.status < 600) →
      mainRun (.ok r) = .ok (extract r.body)) := by
  refine ⟨rfl, ?_, ?_⟩
  · intro r h4 h6
    simp only [mainRun, fetch]
    rw [if_pos ⟨h4, h6⟩]
  · intro r hn
    simp only [mainRun, fetch]
    rw [if_neg hn]

theorem claim_C9_witness :
    (400 ≤ 404 ∧ 404 < 600 ∧ mainRun (.ok ⟨404, docC1⟩) = .error (.httpStatus 404)) ∧
      (¬(400 ≤ 304 ∧ 304 < 600) ∧ mainRun (.ok ⟨304, docC1⟩) = .ok (extract docC1)) :=
  ⟨⟨by omega, by omega, claim_C9.2.1 ⟨404, docC1⟩ (by decide) (by decide)⟩,
    ⟨by omega, claim_C9.2.2 ⟨304, docC1⟩ (by decide)⟩⟩

/-- C10: a JSON example marked up as a `code` element nested inside a `pre`
element matches two of the three selector patterns and is scanned as two
distinct candidates with the same text and the same preceding heading: both
parse and both are saved under the same derived name — the write log holds the
same entry twice (same file name, second write overwriting the first), the
final count is 2, yet only one distinct file name is produced. -/
theorem claim_C10 (hd j : List Char) (v : PyJson)
    (hs : startsJson (pyStrip j) = true)
    (hp : loads (pyStrip j) = some v) :
    ∃ e : Entry,
      extract (mkNested hd j) = (2, [e, e]) ∧
      e.base = cleanName hd ∧
      ((extract (mkNested hd j)).2.map Entry.fname).dedup.length = 1 ∧
      (extract (mkNested hd j)).1 = 2 := by
  have m1 : matchesSel (lc "html") [] = false := by decide
  have m2 : matchesSel (lc "h2") [] = false := by decide
  have m3 : matchesSel (lc "pre") [] = true := by decide
  have m4 : matchesSel (lc "code") [] = true := by decide
  have t1 : isHeadingTag (lc "html") = false := by decide
  have t2 : isHeadingTag (lc "h2") = true := by decide
  have t3 : isHeadingTag (lc "pre") = false := by decide
  have t4 : isHeadingTag (lc "code") = false := by decide
  have hc : candidates (mkNested hd j) = [⟨j, some hd⟩, ⟨j, some hd⟩] := by
    simp [candidates, mkNested, scanN, scanNs, getTexts, getText,
      m1, m2, m3, m4, t1, t2, t3, t4]
  have hpc : ∀ s : Nat, processCand s ⟨j, some hd⟩ =
      (s + 1, some ⟨some hd, cleanName hd, dumpsTop v⟩) := by
    intro s
    unfold processCand
    rw [hs, hp]
    simp
  have he : extract (mkNested hd j) =
      (2, [⟨some hd, cleanName hd, dumpsTop v⟩, ⟨some hd, cleanName hd, dumpsTop v⟩]) := by
    unfold extract
    rw [hc]
    simp only [runCands, hpc]
  refine ⟨⟨some hd, cleanName hd, dumpsTop v⟩, he, rfl, ?_, by rw [he]⟩
  rw [he]
  simp [List.dedup_cons_of_mem]

theorem claim_C10_witness :
    startsJson (pyStrip (lc "[1]")) = true ∧
    loads (pyStrip (lc "[1]")) = some (PyJson.arr (.cons (.int 1) .nil)) ∧
    ∃ e : Entry,
      extract (mkNested (lc "Get Activity") (lc "[1]")) = (2, [e, e]) ∧
      e.base = cleanName (lc "Get Activity") ∧
      ((extract (mkNested (lc "Get Activity") (lc "[1]"))).2.map Entry.fname).dedup.length
        = 1 ∧
      (extract (mkNested (lc "Get Activity") (lc "[1]"))).1 = 2 :=
  ⟨rfl, rfl,
    claim_C10 (lc "Get Activity") (lc "[1]") (PyJson.arr (.cons (.int 1) .nil)) rfl rfl⟩
